import Mathlib

/-!
# Verification of the `coba` continuous-backup daemon against its specification

Shallow embedding of the core of `coba` (path normalization, the debouncing
event queue, the version store, the restore engine, the ignore filter and the
timestamp parser) together with proofs and refutations of the specification's
claims.  Python strings are modelled as lists of characters, machine time as
natural numbers, the SQLite `versions` table as a list of rows in rowid
(insertion) order, and the filesystem as a partial map from paths to entries.
-/

set_option autoImplicit false

namespace Coba

/-- Python strings are modelled as lists of characters. -/
abbrev PyStr := List Char

/-! ## Path normalizer (`coba/utils.py`, `make_path_absolute`)

`make_path_absolute(p)` is `Path(os.path.normcase(os.path.abspath(str(p))))`.
We model the POSIX flavour: `os.path.normcase` is the identity and
`os.path.abspath` is `normpath(join(getcwd(), path))` (the join is skipped for
absolute inputs).  The `Path(...)`/`str(...)` round trips collapse repeated
separators and drop `.` components, which `normpath` performs anyway, so they
are absorbed by the embedding. -/

/-- `posixpath.isabs`: a path is absolute iff it starts with a slash. -/
def isAbs (p : PyStr) : Bool :=
  match p with
  | [] => false
  | c :: _ => c = '/'

/-- The number of leading slashes that `posixpath.normpath` preserves:
`initial_slashes = path.startswith('/')`, upgraded to `2` when the path starts
with exactly two slashes (POSIX keeps `//`; three or more collapse to one). -/
def initialSlashes (p : PyStr) : Nat :=
  if isAbs p then
    if p.take 2 = ['/', '/'] ∧ p.take 3 ≠ ['/', '/', '/'] then 2 else 1
  else 0

/-- `str.split('/')`: split on every slash, keeping empty components. -/
def splitSep : PyStr → List PyStr
  | [] => [[]]
  | c :: rest =>
    if c = '/' then [] :: splitSep rest
    else
      match splitSep rest with
      | [] => [[c]]
      | h :: t => (c :: h) :: t

/-- One iteration of `normpath`'s component loop.  `acc` holds the components
collected so far, most recent first (Python appends to `new_comps`; we cons and
reverse at the end).  Empty and `.` components are dropped; `..` is appended
when the path is relative and nothing was collected yet, or when the previous
component is itself `..`; otherwise it pops the previous component (a no-op on
an empty accumulator). -/
def normStep (slashes : Bool) (acc : List PyStr) (comp : PyStr) : List PyStr :=
  if comp = ([] : PyStr) ∨ comp = ['.'] then acc
  else if comp ≠ ['.', '.'] ∨ (¬ slashes ∧ acc = []) ∨ acc.head? = some ['.', '.'] then
    comp :: acc
  else acc.tail

/-- `'/'.join(comps)`. -/
def joinComps : List PyStr → PyStr
  | [] => []
  | [c] => c
  | c :: rest => c ++ '/' :: joinComps rest

/-- `posixpath.normpath`. -/
def normpath (p : PyStr) : PyStr :=
  if p = ([] : PyStr) then ['.']
  else
    let k := initialSlashes p
    let comps := ((splitSep p).foldl (normStep (k ≠ 0)) []).reverse
    let out := List.replicate k '/' ++ joinComps comps
    if out = ([] : PyStr) then ['.'] else out

/-- `posixpath.join` for two arguments. -/
def pjoin (a b : PyStr) : PyStr :=
  if isAbs b then b
  else if a = ([] : PyStr) ∨ a.getLast? = some '/' then a ++ b
  else a ++ '/' :: b

/-- `posixpath.abspath`, with the working directory passed explicitly. -/
def abspath (cwd p : PyStr) : PyStr :=
  if isAbs p then normpath p else normpath (pjoin cwd p)

/-- `os.path.normcase` on POSIX: the identity. -/
def normcase (p : PyStr) : PyStr := p

/-- `coba.utils.make_path_absolute`:
`Path(os.path.normcase(os.path.abspath(str(p))))`.  Per its own docstring it
"does not resolve symbolic links". -/
def make_path_absolute (cwd p : PyStr) : PyStr := normcase (abspath cwd p)

/-- A component of a fully normalized absolute path: nonempty, not `.`,
not `..`, and slash-free. -/
def goodComp (c : PyStr) : Prop :=
  c ≠ ([] : PyStr) ∧ c ≠ ['.'] ∧ c ≠ ['.', '.'] ∧ '/' ∉ c

theorem splitSep_ne_nil (p : PyStr) : splitSep p ≠ [] := by
  induction p with
  | nil => simp [splitSep]
  | cons c rest ih =>
    simp only [splitSep]
    split
    · simp
    · cases h : splitSep rest <;> simp

theorem splitSep_no_slash (p : PyStr) : ∀ c ∈ splitSep p, '/' ∉ c := by
  induction p with
  | nil => simp [splitSep]
  | cons c rest ih =>
    intro x hx
    simp only [splitSep] at hx
    by_cases hc : c = '/'
    · rw [if_pos hc] at hx
      rcases List.mem_cons.mp hx with h1 | h1
      · simp [h1]
      · exact ih x h1
    · rw [if_neg hc] at hx
      cases h : splitSep rest with
      | nil => exact absurd h (splitSep_ne_nil rest)
      | cons hh tt =>
        rw [h] at hx
        rcases List.mem_cons.mp hx with h1 | h1
        · subst h1
          intro hmem
          rcases List.mem_cons.mp hmem with h2 | h2
          · exact hc h2.symm
          · exact ih hh (h ▸ List.mem_cons_self _ _) h2
        · exact ih x (h ▸ List.mem_cons_of_mem _ h1)

/-- When the path is absolute, every component the `normpath` loop collects is
a `goodComp`: in particular `..` never survives. -/
theorem fold_good (comps : List PyStr) :
    ∀ acc : List PyStr, (∀ c ∈ acc, goodComp c) → (∀ c ∈ comps, '/' ∉ c) →
      ∀ c ∈ comps.foldl (normStep true) acc, goodComp c := by
  induction comps with
  | nil => intro acc hacc _ c hc; exact hacc c hc
  | cons a rest ih =>
    intro acc hacc hns c hc
    simp only [List.foldl_cons] at hc
    have hastep : ∀ x ∈ normStep true acc a, goodComp x := by
      intro x hx
      unfold normStep at hx
      split at hx
      · exact hacc x hx
      · rename_i hne
        split at hx
        · rename_i hcond
          rcases List.mem_cons.mp hx with hxa | hxacc
          · subst hxa
            push_neg at hne
            rcases hcond with h1 | h2 | h3
            · exact ⟨hne.1, hne.2, h1, hns x (List.mem_cons_self _ _)⟩
            · exact absurd rfl h2.1
            · exfalso
              cases hacc' : acc with
              | nil => rw [hacc'] at h3; simp at h3
              | cons y ys =>
                have hy := hacc y (hacc' ▸ List.mem_cons_self _ _)
                rw [hacc'] at h3
                simp only [List.head?_cons, Option.some.injEq] at h3
                exact hy.2.2.1 h3
          · exact hacc x hxacc
        · exact hacc x (List.mem_of_mem_tail hx)
    exact ih _ hastep (fun x hx => hns x (List.mem_cons_of_mem _ hx)) c hc

theorem splitSep_replicate_append (k : Nat) (x : PyStr) :
    splitSep (List.replicate k '/' ++ x) = List.replicate k ([] : PyStr) ++ splitSep x := by
  induction k with
  | zero => simp
  | succ n ih => simp [List.replicate_succ, splitSep, ih]

theorem splitSep_of_no_slash {c : PyStr} (h : '/' ∉ c) : splitSep c = [c] := by
  induction c with
  | nil => simp [splitSep]
  | cons a rest ih =>
    have ha : a ≠ '/' := fun hh => h (hh ▸ List.mem_cons_self _ _)
    have hrest : '/' ∉ rest := fun hh => h (List.mem_cons_of_mem _ hh)
    simp [splitSep, ha, ih hrest]

theorem splitSep_append_slash_cons {c : PyStr} (x : PyStr) (h : '/' ∉ c) :
    splitSep (c ++ '/' :: x) = c :: splitSep x := by
  induction c with
  | nil => simp [splitSep]
  | cons a rest ih =>
    have ha : a ≠ '/' := fun hh => h (hh ▸ List.mem_cons_self _ _)
    have hrest : '/' ∉ rest := fun hh => h (List.mem_cons_of_mem _ hh)
    simp [splitSep, ha, ih hrest]

theorem splitSep_joinComps {comps : List PyStr} (hne : comps ≠ [])
    (h : ∀ c ∈ comps, '/' ∉ c) : splitSep (joinComps comps) = comps := by
  induction comps with
  | nil => exact absurd rfl hne
  | cons c rest ih =>
    cases rest with
    | nil => exact splitSep_of_no_slash (h c (List.mem_cons_self _ _))
    | cons d rest' =>
      have hc : '/' ∉ c := h c (List.mem_cons_self _ _)
      have : joinComps (c :: d :: rest') = c ++ '/' :: joinComps (d :: rest') := rfl
      rw [this, splitSep_append_slash_cons _ hc,
        ih (by simp) (fun x hx => h x (List.mem_cons_of_mem _ hx))]

theorem foldl_normStep_good {comps : List PyStr} (h : ∀ c ∈ comps, goodComp c) :
    ∀ acc, comps.foldl (normStep true) acc = comps.reverse ++ acc := by
  induction comps with
  | nil => simp
  | cons a rest ih =>
    intro acc
    have ha := h a (List.mem_cons_self _ _)
    have hstep : normStep true acc a = a :: acc := by
      unfold normStep
      rw [if_neg (by push_neg; exact ⟨ha.1, ha.2.1⟩), if_pos (Or.inl ha.2.2.1)]
    simp only [List.foldl_cons, hstep]
    rw [ih (fun x hx => h x (List.mem_cons_of_mem _ hx))]
    simp

theorem foldl_normStep_empties (k : Nat) (s : Bool) :
    ∀ acc, (List.replicate k ([] : PyStr)).foldl (normStep s) acc = acc := by
  induction k with
  | zero => simp
  | succ n ih =>
    intro acc
    have : normStep s acc [] = acc := by unfold normStep; rw [if_pos (Or.inl rfl)]
    simp [List.replicate_succ, this, ih]

theorem joinComps_head_ne_slash {comps : List PyStr} (h : ∀ c ∈ comps, goodComp c) :
    (joinComps comps).head? ≠ some '/' := by
  cases comps with
  | nil => simp [joinComps]
  | cons c rest =>
    have hc := h c (List.mem_cons_self _ _)
    have : (joinComps (c :: rest)).head? = c.head? := by
      cases rest with
      | nil => rfl
      | cons d rest' =>
        show (c ++ '/' :: joinComps (d :: rest')).head? = c.head?
        cases c with
        | nil => exact absurd rfl hc.1
        | cons a t => rfl
    rw [this]
    cases c with
    | nil => simp
    | cons a t =>
      intro hh
      rw [List.head?_cons] at hh
      cases Option.some.inj hh
      exact hc.2.2.2 (List.mem_cons_self _ _)

theorem initialSlashes_normal {comps : List PyStr} (k : Nat) (hk1 : 1 ≤ k) (hk2 : k ≤ 2)
    (h : ∀ c ∈ comps, goodComp c) :
    initialSlashes (List.replicate k '/' ++ joinComps comps) = k := by
  have hhead := joinComps_head_ne_slash h
  interval_cases k
  · cases hj : joinComps comps with
    | nil => simp [initialSlashes, isAbs, List.replicate]
    | cons a t =>
      have ha : a ≠ '/' := by
        rw [hj] at hhead; simpa using hhead
      simp [initialSlashes, isAbs, List.replicate, ha]
  · cases hj : joinComps comps with
    | nil => simp [initialSlashes, isAbs, List.replicate]
    | cons a t =>
      have ha : a ≠ '/' := by
        rw [hj] at hhead; simpa using hhead
      simp [initialSlashes, isAbs, List.replicate, ha]

/-- Shape of `normpath` on an absolute path: the preserved leading slashes
followed by slash-joined components none of which is empty, `.` or `..`. -/
theorem normpath_abs_normal {p : PyStr} (hp : isAbs p = true) :
    ∃ k comps, 1 ≤ k ∧ k ≤ 2 ∧ (∀ c ∈ comps, goodComp c) ∧
      normpath p = List.replicate k '/' ++ joinComps comps := by
  have hpne : p ≠ [] := by cases p with | nil => simp [isAbs] at hp | cons a t => simp
  have hk0 : initialSlashes p ≠ 0 := by
    unfold initialSlashes
    rw [if_pos hp]
    split <;> simp
  refine ⟨initialSlashes p, ((splitSep p).foldl (normStep true) []).reverse, ?_, ?_, ?_, ?_⟩
  · omega
  · unfold initialSlashes
    rw [if_pos hp]
    split <;> simp
  · intro c hc
    rw [List.mem_reverse] at hc
    exact fold_good _ [] (by simp) (splitSep_no_slash p) c hc
  · unfold normpath
    rw [if_neg hpne]
    simp only [ne_eq, hk0, not_false_eq_true, decide_True]
    have hout : List.replicate (initialSlashes p) '/' ++
        joinComps ((List.foldl (normStep true) [] (splitSep p)).reverse) ≠ [] := by
      intro hcontra
      have := congrArg List.length hcontra
      simp at this
      omega
    rw [if_neg hout]

/-- `normpath` is the identity on paths already in the normal form it
produces. -/
theorem normpath_of_normal {comps : List PyStr} (k : Nat) (hk1 : 1 ≤ k) (hk2 : k ≤ 2)
    (h : ∀ c ∈ comps, goodComp c) :
    normpath (List.replicate k '/' ++ joinComps comps)
      = List.replicate k '/' ++ joinComps comps := by
  set p := List.replicate k '/' ++ joinComps comps with hpdef
  have hpne : p ≠ [] := by
    intro hcontra
    have := congrArg List.length hcontra
    simp [hpdef] at this
    omega
  have hinit : initialSlashes p = k := initialSlashes_normal k hk1 hk2 h
  have hflag : decide (k ≠ 0) = true := by simp; omega
  have hfold : joinComps (((splitSep p).foldl (normStep (decide (k ≠ 0))) []).reverse)
      = joinComps comps := by
    rw [hflag]
    cases hc : comps with
    | nil =>
      have hsplit : splitSep p = List.replicate k ([] : PyStr) ++ [[]] := by
        rw [hpdef, hc]
        show splitSep (List.replicate k '/' ++ joinComps []) = _
        rw [show joinComps [] = ([] : PyStr) from rfl, splitSep_replicate_append]
        rfl
      rw [hsplit, show List.replicate k ([] : PyStr) ++ [[]]
            = List.replicate (k + 1) ([] : PyStr) by
          rw [List.replicate_succ']
        , foldl_normStep_empties]
      rfl
    | cons c0 rest =>
      have hgood : ∀ x ∈ comps, goodComp x := h
      have hnoslash : ∀ x ∈ comps, '/' ∉ x := fun x hx => (h x hx).2.2.2
      have hsplit : splitSep p = List.replicate k ([] : PyStr) ++ comps := by
        rw [hpdef, splitSep_replicate_append,
          splitSep_joinComps (by rw [hc]; simp) hnoslash]
      rw [hsplit, List.foldl_append, foldl_normStep_empties,
        foldl_normStep_good hgood, List.append_nil, List.reverse_reverse, hc]
  unfold normpath
  rw [if_neg hpne, hinit]
  simp only [hfold]
  rw [if_neg (by rw [← hpdef]; exact hpne)]

theorem isAbs_normpath_of_abs {p : PyStr} (hp : isAbs p = true) :
    isAbs (normpath p) = true := by
  obtain ⟨k, comps, hk1, _, _, heq⟩ := normpath_abs_normal hp
  rw [heq]
  cases k with
  | zero => omega
  | succ n => simp [List.replicate_succ, isAbs]

theorem isAbs_pjoin {cwd : PyStr} (p : PyStr) (hcwd : isAbs cwd = true) :
    isAbs (pjoin cwd p) = true := by
  cases cwd with
  | nil => simp [isAbs] at hcwd
  | cons a t =>
    have ha : a = '/' := by simpa [isAbs] using hcwd
    unfold pjoin
    split
    · assumption
    · split <;> simp [isAbs, ha]

theorem isAbs_make_path_absolute {cwd : PyStr} (p : PyStr) (hcwd : isAbs cwd = true) :
    isAbs (make_path_absolute cwd p) = true := by
  unfold make_path_absolute normcase abspath
  split
  · exact isAbs_normpath_of_abs (by assumption)
  · exact isAbs_normpath_of_abs (isAbs_pjoin p hcwd)

theorem normpath_idem {p : PyStr} (hp : isAbs p = true) :
    normpath (normpath p) = normpath p := by
  obtain ⟨k, comps, hk1, hk2, hgood, heq⟩ := normpath_abs_normal hp
  rw [heq]
  exact normpath_of_normal k hk1 hk2 hgood

/-- `abspath` leaves an absolute path of the normal form untouched, so the
whole normalizer is idempotent. -/
theorem make_path_absolute_makeidem {cwd p : PyStr} (hcwd : isAbs cwd = true) :
    make_path_absolute cwd (make_path_absolute cwd p) = make_path_absolute cwd p := by
  have habs : isAbs (make_path_absolute cwd p) = true := isAbs_make_path_absolute p hcwd
  show normcase (abspath cwd (make_path_absolute cwd p)) = make_path_absolute cwd p
  unfold abspath normcase
  rw [if_pos habs]
  show normpath (normcase (abspath cwd p)) = make_path_absolute cwd p
  unfold make_path_absolute abspath normcase
  split
  · exact normpath_idem (by assumption)
  · exact normpath_idem (isAbs_pjoin p hcwd)

/-- Modelled from the spec: "resolves symlinks to their targets".  `links` maps
an absolute path that is a symbolic link to its absolute target.  The
components of the absolutized path are resolved left to right (one level of
indirection, which is all the refutation needs). -/
def resolveComps (links : List (PyStr × PyStr)) : PyStr → List PyStr → PyStr
  | cur, [] => cur
  | cur, c :: rest =>
    let cand := cur ++ '/' :: c
    match links.find? (fun e => e.1 = cand) with
    | some e => resolveComps links e.2 rest
    | none => resolveComps links cand rest

/-- Modelled from the spec: the "absolute, symlink-resolved, case-normalized
form" of a path — absolutize (as the code does), then resolve each component
through the symlink table. -/
def realpathSpec (links : List (PyStr × PyStr)) (cwd p : PyStr) : PyStr :=
  let q := make_path_absolute cwd p
  let comps := (splitSep q).filter (fun c => c ≠ ([] : PyStr))
  let r := resolveComps links [] comps
  if r = ([] : PyStr) then ['/'] else r

/-- C4 (counterexample): `make_path_absolute` does not return the
symlink-resolved form.  On a filesystem where `/a` is a symbolic link to `/b`,
the symlink-resolved form of `/a/f` is `/b/f`, but the function returns
`/a/f` unchanged — its own docstring says "Does not resolve symbolic links". -/
theorem C4_no_symlink_resolution :
    make_path_absolute ("/h".data) ("/a/f".data)
        ≠ realpathSpec [("/a".data, "/b".data)] ("/h".data) ("/a/f".data) ∧
      realpathSpec [("/a".data, "/b".data)] ("/h".data) ("/a/f".data) = "/b/f".data := by
  decide

/-- C4 (amended): for an absolute working directory, path normalization
returns the absolute, case-normalized form — it resolves relative paths
against the working directory and collapses `.` and `..` (no `.` or `..`
component survives) — but it does not resolve symbolic links. -/
theorem C4_normal_form (cwd p : PyStr) (hcwd : isAbs cwd = true) :
    isAbs (make_path_absolute cwd p) = true ∧
    ∀ c ∈ splitSep (make_path_absolute cwd p), c ≠ ['.'] ∧ c ≠ ['.', '.'] := by
  refine ⟨isAbs_make_path_absolute p hcwd, ?_⟩
  have hex : ∃ r, isAbs r = true ∧ make_path_absolute cwd p = normpath r := by
    unfold make_path_absolute normcase abspath
    split
    · exact ⟨p, by assumption, rfl⟩
    · exact ⟨pjoin cwd p, isAbs_pjoin p hcwd, rfl⟩
  obtain ⟨r, hr, heq⟩ := hex
  obtain ⟨k, comps, hk1, hk2, hgood, hnf⟩ := normpath_abs_normal hr
  rw [heq, hnf, splitSep_replicate_append]
  intro c hc
  rcases List.mem_append.mp hc with h1 | h1
  · have := List.eq_of_mem_replicate h1
    subst this
    exact ⟨by simp, by simp⟩
  · by_cases hcomps : comps = []
    · subst hcomps
      simp only [joinComps, splitSep] at h1
      rcases List.mem_singleton.mp h1 with h2
      subst h2
      exact ⟨by simp, by simp⟩
    · rw [splitSep_joinComps hcomps (fun x hx => (hgood x hx).2.2.2)] at h1
      exact ⟨(hgood c h1).2.1, (hgood c h1).2.2.1⟩

theorem C4_normal_form_witness :
    isAbs ("/h".data) = true ∧
    (isAbs (make_path_absolute ("/h".data) ("a/./x/../b".data)) = true ∧
     ∀ c ∈ splitSep (make_path_absolute ("/h".data) ("a/./x/../b".data)),
       c ≠ ['.'] ∧ c ≠ ['.', '.']) :=
  ⟨by decide, C4_normal_form ("/h".data) ("a/./x/../b".data) (by decide)⟩

/-- C10: path normalization is idempotent — normalizing an already normalized
path (for the same absolute working directory) is a fixed point. -/
theorem C10_idempotent (cwd p : PyStr) (hcwd : isAbs cwd = true) :
    make_path_absolute cwd (make_path_absolute cwd p) = make_path_absolute cwd p :=
  make_path_absolute_makeidem hcwd

theorem C10_idempotent_witness :
    isAbs ("/h".data) = true ∧
    make_path_absolute ("/h".data) (make_path_absolute ("/h".data) ("a/../b/./c".data))
      = make_path_absolute ("/h".data) ("a/../b/./c".data) :=
  ⟨by decide, C10_idempotent ("/h".data) ("a/../b/./c".data) (by decide)⟩

/-! ## Debouncing event queue (`coba/__init__.py`)

The `DictQueue` wraps an `OrderedDict`, modelled as a list of key/value pairs
in queue order (oldest first, most recently touched last).  Registration times
(`time.time()`) are natural numbers. -/

/-- `IDLE_WAIT_SECONDS = 5`: seconds to wait for another modification before
backing up a file. -/
def IDLE_WAIT_SECONDS : Nat := 5

/-- A `DictQueue` entry: the path and the value stored for it (the
registration time). -/
abbrev QEntry := String × Nat

/-- `DictQueue.__setitem__`: `move_to_end` (whose `KeyError` for an absent key
is ignored) followed by the assignment, so the key's entry is removed from its
position and re-appended at the most-recent end with the new value. -/
def dictQueueSet (q : List QEntry) (k : String) (v : Nat) : List QEntry :=
  q.filter (fun e => e.1 ≠ k) ++ [(k, v)]

/-- `DictQueue.pop_oldest_item`: `oldest_key = next(iter(self._dict.keys()))`
(`ValueError` on an empty queue, modelled by `none`), then
`return self._dict.popitem(oldest_key)`.  `OrderedDict.popitem` has signature
`popitem(last=True)`, so `oldest_key` is passed as the `last` flag; a
`pathlib.Path` object is always truthy, hence the entry removed and returned
is the one at the *most recent* end. -/
def pop_oldest_item (q : List QEntry) : Option (QEntry × List QEntry) :=
  match q.head? with
  | none => none
  | some _ =>
    match q.getLast? with
    | none => none
    | some e => some (e, q.dropLast)

/-- C1 (code bug): after registering path `a` and then path `b`, the entry at
the oldest end of the queue is `(a, 0)`, but `pop_oldest_item` removes and
returns the newest entry `(b, 1)` — `popitem` receives the truthy oldest key
as its `last` flag, contradicting the method's own docstring ("Remove and
return the oldest item"). -/
theorem C1_pop_oldest_returns_newest :
    (dictQueueSet (dictQueueSet [] "a" 0) "b" 1).head? = some ("a", 0) ∧
    pop_oldest_item (dictQueueSet (dictQueueSet [] "a" 0) "b" 1)
      = some ((("b" : String), 1), [(("a" : String), 0)]) := by
  decide

/-- One debounce cycle of `FileQueue.__next__` for a single watched path.
The consumer has removed the queue entry with registration time `t0` and
sleeps (without the lock) until `t0 + w`; `rest` holds the future
registration times of the same path, ascending.  Registrations at or before
the wake-up instant have updated the queue before the membership re-check, so
at wake-up the entry, if present, carries the last registration time
`≤ t0 + w`; the consumer then discards the emission, pops that entry and
repeats.  With a single path the queue holds at most one entry, so which end
`pop_oldest_item` removes is irrelevant here.  Returns the emission time of
the burst and the registrations still pending after it. -/
def waitLoop (w t0 : Nat) (rest : List Nat) : Nat × List Nat :=
  match hw : (rest.takeWhile (fun t => t ≤ t0 + w)).getLast? with
  | none => (t0 + w, rest.dropWhile (fun t => t ≤ t0 + w))
  | some r => waitLoop w r (rest.dropWhile (fun t => t ≤ t0 + w))
termination_by rest.length
decreasing_by
  have hne : rest.takeWhile (fun t => t ≤ t0 + w) ≠ [] := by
    intro hc
    rw [hc] at hw
    simp at hw
  have hlen : (rest.takeWhile (fun t => t ≤ t0 + w)).length
      + (rest.dropWhile (fun t => t ≤ t0 + w)).length = rest.length := by
    rw [← List.length_append, List.takeWhile_append_dropWhile]
  have hpos : 0 < (rest.takeWhile (fun t => t ≤ t0 + w)).length :=
    List.length_pos.mpr hne
  omega

theorem waitLoop_snd_length (w : Nat) :
    ∀ (n t0 : Nat) (rest : List Nat), rest.length ≤ n →
      (waitLoop w t0 rest).2.length ≤ rest.length := by
  intro n
  induction n with
  | zero =>
    intro t0 rest h
    have : rest = [] := List.length_eq_zero.mp (Nat.le_zero.mp h)
    subst this
    simp [waitLoop]
  | succ m ih =>
    intro t0 rest h
    rw [waitLoop]
    have hlen : (rest.takeWhile (fun t => t ≤ t0 + w)).length
        + (rest.dropWhile (fun t => t ≤ t0 + w)).length = rest.length := by
      rw [← List.length_append, List.takeWhile_append_dropWhile]
    split
    · have : (rest.dropWhile (fun t => t ≤ t0 + w)).length ≤ rest.length := by omega
      simpa using this
    · rename_i r hw
      have hne : rest.takeWhile (fun t => t ≤ t0 + w) ≠ [] := by
        intro hc
        rw [hc] at hw
        simp at hw
      have hpos : 0 < (rest.takeWhile (fun t => t ≤ t0 + w)).length :=
        List.length_pos.mpr hne
      have hd : (rest.dropWhile (fun t => t ≤ t0 + w)).length ≤ m := by omega
      have := ih r (rest.dropWhile (fun t => t ≤ t0 + w)) hd
      omega

/-- Full run of the consumer against a finite ascending trace of single-path
registration times: the list of emission times. -/
def fileQueueEmissions (w : Nat) : List Nat → List Nat
  | [] => []
  | t :: rest =>
    (waitLoop w t rest).1 :: fileQueueEmissions w (waitLoop w t rest).2
termination_by l => l.length
decreasing_by
  have := waitLoop_snd_length w rest.length t rest (le_refl _)
  simp only [List.length_cons]
  omega

/-- The time of the burst's most recent registration (`t0` when no further
registration happened). -/
def lastReg (t0 : Nat) (rest : List Nat) : Nat := (rest.getLast?).getD t0

theorem lastReg_ne_nil {l : List Nat} (h : l ≠ []) (d₁ d₂ : Nat) :
    lastReg d₁ l = lastReg d₂ l := by
  unfold lastReg
  have : l.getLast?.isSome := List.getLast?_isSome.mpr h
  cases hc : l.getLast? with
  | none => rw [hc] at this; simp at this
  | some x => simp

theorem waitLoop_burst (w : Nat) :
    ∀ (n t0 : Nat) (rest : List Nat), rest.length ≤ n →
      List.Chain' (fun a b => a < b ∧ b < a + w) (t0 :: rest) →
      waitLoop w t0 rest = (lastReg t0 rest + w, []) := by
  intro n
  induction n with
  | zero =>
    intro t0 rest h _
    have : rest = [] := List.length_eq_zero.mp (Nat.le_zero.mp h)
    subst this
    simp [waitLoop, lastReg]
  | succ m ih =>
    intro t0 rest h hch
    cases rest with
    | nil => simp [waitLoop, lastReg]
    | cons a rs =>
      have hhead : t0 < a ∧ a < t0 + w := (List.chain'_cons.mp hch).1
      have hpa : (fun t => decide (t ≤ t0 + w)) a = true := by
        simp
        omega
      have htw : (a :: rs).takeWhile (fun t => t ≤ t0 + w)
          = a :: rs.takeWhile (fun t => t ≤ t0 + w) :=
        List.takeWhile_cons_of_pos hpa
      have hdw : (a :: rs).dropWhile (fun t => t ≤ t0 + w)
          = rs.dropWhile (fun t => t ≤ t0 + w) :=
        List.dropWhile_cons_of_pos hpa
      rw [waitLoop]
      split
      · rename_i hw
        rw [htw] at hw
        simp at hw
      · rename_i r hw
        -- `r` is the most recent registration at or before the wake-up
        have hsplitrest : (a :: rs).takeWhile (fun t => t ≤ t0 + w)
            ++ (a :: rs).dropWhile (fun t => t ≤ t0 + w) = a :: rs :=
          List.takeWhile_append_dropWhile _ _
        have htail : List.Chain' (fun a b => a < b ∧ b < a + w) (a :: rs) := hch.tail
        rw [← hsplitrest] at htail
        have happ := List.chain'_append.mp htail
        have hchr : List.Chain' (fun a b => a < b ∧ b < a + w)
            (r :: (a :: rs).dropWhile (fun t => t ≤ t0 + w)) := by
          rw [List.chain'_cons']
          exact ⟨fun y hy => happ.2.2 r hw y hy, happ.2.1⟩
        have hlenr : ((a :: rs).dropWhile (fun t => t ≤ t0 + w)).length ≤ m := by
          have : (rs.takeWhile (fun t => t ≤ t0 + w)).length
              + (rs.dropWhile (fun t => t ≤ t0 + w)).length = rs.length := by
            rw [← List.length_append, List.takeWhile_append_dropWhile]
          have hlen : rs.length + 1 ≤ m + 1 := by simpa using h
          rw [hdw]
          omega
        rw [ih r _ hlenr hchr]
        -- identify the last registration of the whole burst
        have hlast : lastReg r ((a :: rs).dropWhile (fun t => t ≤ t0 + w))
            = lastReg t0 (a :: rs) := by
          cases hdc : (a :: rs).dropWhile (fun t => t ≤ t0 + w) with
          | nil =>
            have : (a :: rs).getLast? = some r := by
              rw [← hsplitrest, hdc, List.append_nil]
              exact hw
            simp [lastReg, this]
          | cons x xs =>
            have h1 : (a :: rs).getLast? = (x :: xs).getLast? := by
              rw [← hsplitrest, hdc]
              exact List.getLast?_append_of_ne_nil _ (by simp)
            unfold lastReg
            rw [h1]
            have hiss : (x :: xs).getLast?.isSome := List.getLast?_isSome.mpr (by simp)
            cases hgl : (x :: xs).getLast? with
            | none => rw [hgl] at hiss; simp at hiss
            | some y => simp
        rw [hlast]

/-- A maximal burst (all gaps under the debounce window) produces exactly one
emission, at the time of the last registration plus the window. -/
theorem fileQueueEmissions_burst (w t0 : Nat) (rest : List Nat)
    (hch : List.Chain' (fun a b => a < b ∧ b < a + w) (t0 :: rest)) :
    fileQueueEmissions w (t0 :: rest) = [lastReg t0 rest + w] := by
  have h1 := waitLoop_burst w rest.length t0 rest (le_refl _) hch
  simp only [fileQueueEmissions, h1]

/-- C2: for a finite ascending trace of `register(P)` calls for a single path
`P` whose inter-arrival gaps are all strictly less than `IDLE_WAIT`, the
consumer's `next()` emits `P` exactly once for the burst — the emission list
is the singleton `[t_n + IDLE_WAIT]` — and hence no emission happens earlier
than `t_n + IDLE_WAIT`, where `t_n` is the time of the last call. -/
theorem C2_debounce_coalescing (t0 : Nat) (regs : List Nat)
    (hchain : List.Chain' (fun a b => a < b ∧ b - a < IDLE_WAIT_SECONDS) (t0 :: regs)) :
    fileQueueEmissions IDLE_WAIT_SECONDS (t0 :: regs)
        = [lastReg t0 regs + IDLE_WAIT_SECONDS] ∧
      ∀ e ∈ fileQueueEmissions IDLE_WAIT_SECONDS (t0 :: regs),
        lastReg t0 regs + IDLE_WAIT_SECONDS ≤ e := by
  have hch : List.Chain' (fun a b => a < b ∧ b < a + IDLE_WAIT_SECONDS) (t0 :: regs) :=
    hchain.imp (fun a b hab => ⟨hab.1, by omega⟩)
  have h1 := fileQueueEmissions_burst IDLE_WAIT_SECONDS t0 regs hch
  refine ⟨h1, ?_⟩
  intro e he
  rw [h1] at he
  rw [List.mem_singleton.mp he]

theorem C2_debounce_coalescing_witness :
    List.Chain' (fun a b => a < b ∧ b - a < IDLE_WAIT_SECONDS) (0 :: [3, 5]) ∧
    (fileQueueEmissions IDLE_WAIT_SECONDS (0 :: [3, 5])
        = [lastReg 0 [3, 5] + IDLE_WAIT_SECONDS] ∧
      ∀ e ∈ fileQueueEmissions IDLE_WAIT_SECONDS (0 :: [3, 5]),
        lastReg 0 [3, 5] + IDLE_WAIT_SECONDS ≤ e) :=
  ⟨by norm_num [List.chain'_cons, IDLE_WAIT_SECONDS],
    C2_debounce_coalescing 0 [3, 5] (by norm_num [List.chain'_cons, IDLE_WAIT_SECONDS])⟩

/-! ## Version store (`coba/store.py`)

The SQLite `versions` table is modelled as a list of rows in rowid (insertion)
order; `stored_at` timestamps are naturals.  Paths are the canonical absolute
paths exactly as stored (`make_path_absolute` is applied by the callers at the
boundary and is studied separately above). -/

/-- A row of the `versions` table: `(id PK, path, hash, stored_at)`. -/
structure Row where
  id : Nat
  path : String
  hash : String
  stored_at : Nat
deriving DecidableEq

/-- `Store.get_versions`: `session.query(_Version).filter_by(path=path)` — a
table scan with no ORDER BY, yielding the matching rows in rowid order. -/
def get_versions (tbl : List Row) (p : String) : List Row :=
  tbl.filter (fun r => r.path = p)

/-- Stable insertion into a list sorted by `stored_at` descending: the new row
goes before the first row whose `stored_at` is not larger, so rows with equal
`stored_at` keep their relative (rowid) order. -/
def insertDesc (r : Row) : List Row → List Row
  | [] => [r]
  | b :: rest =>
    if b.stored_at ≤ r.stored_at then r :: b :: rest
    else b :: insertDesc r rest

/-- `ORDER BY stored_at DESC` as a stable sort of the scan order (SQLite
leaves the order of ties unspecified; the stable sort keeps them in rowid
order). -/
def orderByStoredAtDesc : List Row → List Row
  | [] => []
  | r :: rest => insertDesc r (orderByStoredAtDesc rest)

/-- `Store.get_version_at`: filter `path == p` and `stored_at <= t`, order by
`stored_at` descending, take `.first()`. -/
def get_version_at (tbl : List Row) (p : String) (t : Nat) : Option Row :=
  (orderByStoredAtDesc (tbl.filter (fun r => r.path = p ∧ r.stored_at ≤ t))).head?

/-- The first row of the scan attaining the maximal `stored_at`. -/
def firstMax : List Row → Option Row
  | [] => none
  | r :: rest =>
    match firstMax rest with
    | none => some r
    | some m => if r.stored_at < m.stored_at then some m else some r

theorem head?_insertDesc (r : Row) (s : List Row) :
    (insertDesc r s).head? = some (match s.head? with
      | none => r
      | some b => if b.stored_at ≤ r.stored_at then r else b) := by
  cases s with
  | nil => rfl
  | cons b rest =>
    unfold insertDesc
    split
    · rename_i h
      simp [h]
    · rename_i h
      simp [h]

theorem orderBy_head_eq_firstMax (l : List Row) :
    (orderByStoredAtDesc l).head? = firstMax l := by
  induction l with
  | nil => rfl
  | cons r rest ih =>
    show (insertDesc r (orderByStoredAtDesc rest)).head? = firstMax (r :: rest)
    rw [head?_insertDesc, ih]
    cases hf : firstMax rest with
    | none => simp [firstMax, hf]
    | some m =>
      simp only [firstMax, hf]
      by_cases hm : m.stored_at ≤ r.stored_at
      · rw [if_pos hm, if_neg (by omega)]
      · rw [if_neg hm, if_pos (by omega)]

theorem firstMax_none (l : List Row) : firstMax l = none ↔ l = [] := by
  cases l with
  | nil => simp [firstMax]
  | cons r rest =>
    simp only [firstMax, List.cons_ne_nil, iff_false]
    cases hf : firstMax rest with
    | none => simp
    | some m =>
      by_cases hm : r.stored_at < m.stored_at
      · simp [hm]
      · simp [hm]

theorem firstMax_spec (l : List Row) (v : Row) (h : firstMax l = some v) :
    v ∈ l ∧ ∀ x ∈ l, x.stored_at ≤ v.stored_at := by
  induction l generalizing v with
  | nil => simp [firstMax] at h
  | cons r rest ih =>
    cases hf : firstMax rest with
    | none =>
      have hrest : rest = [] := (firstMax_none rest).mp hf
      subst hrest
      simp only [firstMax] at h
      cases h
      exact ⟨List.mem_cons_self _ _, by simp⟩
    | some m =>
      simp only [firstMax, hf] at h
      obtain ⟨hmem, hmax⟩ := ih m hf
      by_cases hlt : r.stored_at < m.stored_at
      · rw [if_pos hlt] at h
        cases h
        refine ⟨List.mem_cons_of_mem _ hmem, ?_⟩
        intro x hx
        rcases List.mem_cons.mp hx with h1 | h1
        · subst h1; omega
        · exact hmax x h1
      · rw [if_neg hlt] at h
        cases h
        refine ⟨List.mem_cons_self _ _, ?_⟩
        intro x hx
        rcases List.mem_cons.mp hx with h1 | h1
        · subst h1
          exact le_refl _
        · have := hmax x h1; omega

theorem firstMax_first (l : List Row) (v : Row)
    (hpw : l.Pairwise (fun a b => a.id < b.id)) (h : firstMax l = some v) :
    ∀ x ∈ l, x.stored_at = v.stored_at → v.id ≤ x.id := by
  induction l generalizing v with
  | nil => simp [firstMax] at h
  | cons r rest ih =>
    have hpwtail := (List.pairwise_cons.mp hpw).2
    have hrlt := (List.pairwise_cons.mp hpw).1
    cases hf : firstMax rest with
    | none =>
      have hrest : rest = [] := (firstMax_none rest).mp hf
      subst hrest
      simp only [firstMax] at h
      cases h
      intro x hx _
      rcases List.mem_singleton.mp hx with h1
      subst h1
      exact le_refl _
    | some m =>
      simp only [firstMax, hf] at h
      obtain ⟨hmem, hmax⟩ := firstMax_spec rest m hf
      by_cases hlt : r.stored_at < m.stored_at
      · rw [if_pos hlt] at h
        cases h
        intro x hx hxst
        rcases List.mem_cons.mp hx with h1 | h1
        · subst h1; omega
        · exact ih v hpwtail hf x h1 hxst
      · rw [if_neg hlt] at h
        cases h
        intro x hx hxst
        rcases List.mem_cons.mp hx with h1 | h1
        · subst h1
          exact le_refl _
        · exact le_of_lt (hrlt x h1)

/-- C5 (counterexample): two versions of `p` share the maximal
`stored_at = 10`; the query returns the row with id 1 (first in scan order),
not the row with the latest id 2 as the claim states. -/
theorem C5_tie_returns_earliest_id :
    get_version_at [⟨1, "p", "h1", 10⟩, ⟨2, "p", "h2", 10⟩] "p" 10
        = some ⟨1, "p", "h1", 10⟩ ∧
      get_version_at [⟨1, "p", "h1", 10⟩, ⟨2, "p", "h2", 10⟩] "p" 10
        ≠ some ⟨2, "p", "h2", 10⟩ := by
  exact ⟨rfl, by decide⟩

/-- C5 (amended): `get_version_at(P, T)` returns `none` exactly when no
version of `P` has `stored_at ≤ T`, and otherwise returns a version of `P`
with the maximal `stored_at ≤ T`; the query has no id tie-break, and among
versions sharing that maximal `stored_at` it returns the first in scan order,
i.e. the one with the *earliest* id (for a table with increasing ids). -/
theorem C5_version_at (tbl : List Row) (p : String) (t : Nat)
    (hids : tbl.Pairwise (fun a b => a.id < b.id)) :
    (get_version_at tbl p t = none ↔ ∀ r ∈ tbl, r.path = p → ¬ r.stored_at ≤ t) ∧
    ∀ v, get_version_at tbl p t = some v →
      v ∈ tbl ∧ v.path = p ∧ v.stored_at ≤ t ∧
      (∀ r ∈ tbl, r.path = p → r.stored_at ≤ t → r.stored_at ≤ v.stored_at) ∧
      (∀ r ∈ tbl, r.path = p → r.stored_at ≤ t → r.stored_at = v.stored_at →
        v.id ≤ r.id) := by
  have hq : get_version_at tbl p t
      = firstMax (tbl.filter (fun r => r.path = p ∧ r.stored_at ≤ t)) := by
    unfold get_version_at
    exact orderBy_head_eq_firstMax _
  constructor
  · rw [hq, firstMax_none, List.filter_eq_nil_iff]
    constructor
    · intro hall r hr hp hst
      exact hall r hr (by simp [hp, hst])
    · intro hall r hr hcond
      simp only [decide_eq_true_eq, Bool.and_eq_true, decide_eq_true_iff] at hcond
      exact hall r hr hcond.1 hcond.2
  · intro v hv
    rw [hq] at hv
    obtain ⟨hmem, hmax⟩ := firstMax_spec _ v hv
    have hmem' := List.mem_filter.mp hmem
    have hcond : v.path = p ∧ v.stored_at ≤ t := by
      have := hmem'.2
      simp only [Bool.and_eq_true, decide_eq_true_eq] at this
      exact this
    refine ⟨hmem'.1, hcond.1, hcond.2, ?_, ?_⟩
    · intro r hr hp hst
      exact hmax r (List.mem_filter.mpr ⟨hr, by simp [hp, hst]⟩)
    · intro r hr hp hst hsteq
      exact firstMax_first _ v (hids.filter _) hv r
        (List.mem_filter.mpr ⟨hr, by simp [hp, hst]⟩) hsteq

theorem C5_version_at_witness :
    ([⟨1, "p", "h1", 3⟩, ⟨2, "p", "h2", 7⟩] : List Row).Pairwise
        (fun a b => a.id < b.id) ∧
    ((get_version_at [⟨1, "p", "h1", 3⟩, ⟨2, "p", "h2", 7⟩] "p" 5 = none ↔
        ∀ r ∈ ([⟨1, "p", "h1", 3⟩, ⟨2, "p", "h2", 7⟩] : List Row),
          r.path = "p" → ¬ r.stored_at ≤ 5) ∧
      ∀ v, get_version_at [⟨1, "p", "h1", 3⟩, ⟨2, "p", "h2", 7⟩] "p" 5 = some v →
        v ∈ ([⟨1, "p", "h1", 3⟩, ⟨2, "p", "h2", 7⟩] : List Row) ∧ v.path = "p" ∧
        v.stored_at ≤ 5 ∧
        (∀ r ∈ ([⟨1, "p", "h1", 3⟩, ⟨2, "p", "h2", 7⟩] : List Row),
          r.path = "p" → r.stored_at ≤ 5 → r.stored_at ≤ v.stored_at) ∧
        (∀ r ∈ ([⟨1, "p", "h1", 3⟩, ⟨2, "p", "h2", 7⟩] : List Row),
          r.path = "p" → r.stored_at ≤ 5 → r.stored_at = v.stored_at →
            v.id ≤ r.id)) :=
  ⟨by decide, C5_version_at _ "p" 5 (by decide)⟩

/-- C6: `get_versions(P)` returns exactly the stored versions of `P`, and —
given the store invariant that per-path `stored_at` is monotone in commit
(rowid) order, maintained by the single worker — the returned sequence is
ordered by `stored_at` ascending, oldest first (the order in which the CLI
`versions` command prints them). -/
theorem C6_versions_sorted (tbl : List Row) (p : String)
    (hmono : tbl.Pairwise (fun a b => a.path = b.path → a.stored_at ≤ b.stored_at)) :
    (∀ r, r ∈ get_versions tbl p ↔ r ∈ tbl ∧ r.path = p) ∧
    (get_versions tbl p).Pairwise (fun a b => a.stored_at ≤ b.stored_at) := by
  constructor
  · intro r
    unfold get_versions
    rw [List.mem_filter]
    simp
  · have hpw := hmono.filter (fun r => decide (r.path = p))
    refine hpw.imp_of_mem ?_
    intro a b ha hb hab
    have hap : a.path = p := by
      have := (List.mem_filter.mp ha).2
      simpa using this
    have hbp : b.path = p := by
      have := (List.mem_filter.mp hb).2
      simpa using this
    exact hab (hap.trans hbp.symm)

theorem C6_versions_sorted_witness :
    ([⟨1, "p", "h1", 3⟩, ⟨2, "q", "h2", 1⟩, ⟨3, "p", "h3", 7⟩] : List Row).Pairwise
        (fun a b => a.path = b.path → a.stored_at ≤ b.stored_at) ∧
    ((∀ r, r ∈ get_versions [⟨1, "p", "h1", 3⟩, ⟨2, "q", "h2", 1⟩, ⟨3, "p", "h3", 7⟩] "p"
          ↔ r ∈ ([⟨1, "p", "h1", 3⟩, ⟨2, "q", "h2", 1⟩, ⟨3, "p", "h3", 7⟩] : List Row)
            ∧ r.path = "p") ∧
      (get_versions [⟨1, "p", "h1", 3⟩, ⟨2, "q", "h2", 1⟩, ⟨3, "p", "h3", 7⟩] "p").Pairwise
        (fun a b => a.stored_at ≤ b.stored_at)) :=
  ⟨by decide, C6_versions_sorted _ "p" (by decide)⟩

/-! ## Storage worker and the watch loop (`coba/cli.py`) -/

/-- A filesystem entry: a regular file with its byte content, or a
directory. -/
inductive FsEntry
  | file (content : String)
  | dir
deriving DecidableEq

/-- The filesystem: a partial map from paths to entries. -/
abbrev Fs := String → Option FsEntry

/-- The error `Store.put` raises when the temporary copy fails:
`shutil.copy2` raises `FileNotFoundError` when the source vanished between
enqueueing and backup (or `IsADirectoryError` for a non-file). -/
inductive PutError
  | copyFailed (p : String)
deriving DecidableEq

/-- `Store.put`: normalize the path, create a temporary copy of the file
(`copy2`, which raises if the source is not a readable file), store the
content in the CAS, insert the version row, and always unlink the temporary
copy.  There is no exception handling: errors propagate to the caller.  The
CAS write plus row insertion are modelled by the appended row, with the
content hash computed by the abstract `hash` function and `stored_at = now`.
-/
def store_put (hash : String → String) (fs : Fs) (tbl : List Row) (now : Nat)
    (p : String) : Except PutError (List Row) :=
  match fs p with
  | some (FsEntry.file content) =>
      Except.ok (tbl ++ [⟨tbl.length + 1, p, hash content, now⟩])
  | _ => Except.error (PutError.copyFailed p)

/-- The `watch` worker loop: `for path in queue: store.put(path)`.  Only
`KeyboardInterrupt` is caught; any exception from `store.put` escapes the
loop, after which `_handle_errors` logs it and exits the process with
status 1. -/
def watch_loop (hash : String → String) (fs : Fs) :
    List Row → List String → Except PutError (List Row)
  | tbl, [] => Except.ok tbl
  | tbl, p :: rest =>
    match store_put hash fs tbl 0 p with
    | Except.ok tbl' => watch_loop hash fs tbl' rest
    | Except.error e => Except.error e

/-- C3 (code bug): a path that disappears between enqueueing and backup makes
`shutil.copy2` raise inside `Store.put`; the `watch` loop has no per-path
exception handling, so the error aborts the loop (and the process), and the
following queued path is never stored — although the spec (and the event
handler's own comment, "this is handled in the backup code") requires the
failure to be logged and dropped with processing continuing. -/
theorem C3_worker_error_aborts_loop :
    watch_loop (fun c => c)
        (fun q => if q = "/w/b" then some (FsEntry.file "bb") else none)
        [] ["/w/a", "/w/b"]
      = Except.error (PutError.copyFailed "/w/a") ∧
    watch_loop (fun c => c)
        (fun q => if q = "/w/b" then some (FsEntry.file "bb") else none)
        [] ["/w/b"]
      = Except.ok [⟨1, "/w/b", "bb", 0⟩] :=
  ⟨rfl, rfl⟩

/-! ## Restore engine (`coba/store.py`, `Version.restore` and `Store._restore`) -/

/-- What a restore can raise: the resolved target exists and `force` is not
set (`FileExistsError`), the blob for the version's hash is missing
(`ValueError("Content ... not found")`), or the final `copyfile` cannot write
because the target is a directory (`IsADirectoryError`). -/
inductive RestoreError
  | fileExists (p : String)
  | contentNotFound (h : String)
  | isADirectory (p : String)
deriving DecidableEq

/-- The version data `restore` uses: the stored path and content hash. -/
structure VersionRec where
  path : String
  hash : String
deriving DecidableEq

/-- `pathlib.Path(p).name`: the final nonempty component (`""` for the
root). -/
def basename (p : String) : String :=
  String.mk (((splitSep p.data).filter (fun c => c ≠ ([] : PyStr))).getLastD [])

/-- `Version.restore`'s target resolution.  `if target_path:` is false both
for `None` and for the empty string, in which case the version's own path is
used; otherwise the target is normalized with `make_path_absolute` and, when
it is an existing directory, the version's basename is appended
(`target_path / self.path.name`). -/
def resolveTarget (fs : Fs) (cwd : PyStr) (v : VersionRec)
    (target_path : Option String) : String :=
  match target_path with
  | some t =>
    if t ≠ "" then
      if fs (String.mk (make_path_absolute cwd t.data)) = some FsEntry.dir then
        String.mk (pjoin (make_path_absolute cwd t.data) (basename v.path).data)
      else String.mk (make_path_absolute cwd t.data)
    else v.path
  | none => v.path

/-- Is `a` a proper ancestor of `b` (i.e. `a ++ "/"` is a prefix of `b`)? -/
def isAncestor (a b : String) : Bool :=
  b.data.take (a.data.length + 1) = a.data ++ ['/']

/-- `path.parent.mkdir(parents=True)` with `FileExistsError` swallowed: every
missing ancestor of the target becomes a directory. -/
def mkParents (fs : Fs) (target : String) : Fs :=
  fun q => if isAncestor q target ∧ fs q = none then some FsEntry.dir else fs q

/-- `Version.restore` followed by `Store._restore`: resolve the target; raise
`FileExistsError` when it exists and `force` is not set (the filesystem is
left untouched, since the exception fires before any write); look up the blob
in the CAS (raise when absent); create missing parent directories; `copyfile`
the blob's bytes to the target (which fails on a directory target).  Returns
the restore path and the updated filesystem. -/
def restore (blobs : String → Option String) (fs : Fs) (cwd : PyStr)
    (v : VersionRec) (target_path : Option String) (force : Bool) :
    Except RestoreError (String × Fs) :=
  let target := resolveTarget fs cwd v target_path
  if (fs target).isSome ∧ force = false then
    Except.error (RestoreError.fileExists target)
  else
    match blobs v.hash with
    | none => Except.error (RestoreError.contentNotFound v.hash)
    | some content =>
      if fs target = some FsEntry.dir then
        Except.error (RestoreError.isADirectory target)
      else
        Except.ok (target,
          fun q => if q = target then some (FsEntry.file content)
                   else mkParents fs target q)

/-- Target resolution exactly as the claim words it: `None` ↦ the version's
path; an existing directory ↦ that directory plus the version's basename;
otherwise the given target verbatim. -/
def resolveTargetClaim (fs : Fs) (v : VersionRec)
    (target_path : Option String) : String :=
  match target_path with
  | none => v.path
  | some t =>
    if fs t = some FsEntry.dir then String.mk (pjoin t.data (basename v.path).data)
    else t

/-- C8 (counterexample): for the empty-string target (`Some ""`, which is not
`None`), the claim resolves the target "verbatim" to `""`, but
`Version.restore`'s `if target_path:` is false for the empty string, so the
code restores at the version's own path `/w/a` instead. -/
theorem C8_empty_target_not_verbatim :
    (restore (fun h => if h = "H" then some "data" else none) (fun _ => none)
        ("/h".data) ⟨"/w/a", "H"⟩ (some "") false).toOption.map Prod.fst
      = some "/w/a" ∧
    resolveTargetClaim (fun _ => none) ⟨"/w/a", "H"⟩ (some "") = "" ∧
    ("/w/a" : String) ≠ "" := by
  exact ⟨rfl, rfl, by decide⟩

/-- C8 (amended): restore resolves the target as follows — a `None` *or
empty* `target_path` yields the version's own path; a normalized target that
is an existing directory gets the version's basename appended; any other
target is used as given (after normalization) — and then, when the resolved
target exists and `force` is false, it fails with `FileExists` before
touching the filesystem, while when `force` is true (and the blob exists and
the target is not a directory) it overwrites the target with the version's
content. -/
theorem C8_restore_policy (blobs : String → Option String) (fs : Fs)
    (cwd : PyStr) (v : VersionRec) (tp : Option String) (force : Bool)
    (content : String) (hblob : blobs v.hash = some content) :
    (resolveTarget fs cwd v none = v.path) ∧
    (resolveTarget fs cwd v (some "") = v.path) ∧
    (∀ t : String, t ≠ "" →
      fs (String.mk (make_path_absolute cwd t.data)) = some FsEntry.dir →
      resolveTarget fs cwd v (some t)
        = String.mk (pjoin (make_path_absolute cwd t.data) (basename v.path).data)) ∧
    (∀ t : String, t ≠ "" →
      fs (String.mk (make_path_absolute cwd t.data)) ≠ some FsEntry.dir →
      resolveTarget fs cwd v (some t) = String.mk (make_path_absolute cwd t.data)) ∧
    ((fs (resolveTarget fs cwd v tp)).isSome → force = false →
      restore blobs fs cwd v tp force
        = Except.error (RestoreError.fileExists (resolveTarget fs cwd v tp))) ∧
    (fs (resolveTarget fs cwd v tp) ≠ some FsEntry.dir → force = true →
      ∃ fs', restore blobs fs cwd v tp force
          = Except.ok (resolveTarget fs cwd v tp, fs') ∧
        fs' (resolveTarget fs cwd v tp) = some (FsEntry.file content)) := by
  refine ⟨rfl, rfl, ?_, ?_, ?_, ?_⟩
  · intro t ht hdir
    simp only [resolveTarget]
    rw [if_pos ht, if_pos hdir]
  · intro t ht hdir
    simp only [resolveTarget]
    rw [if_pos ht, if_neg hdir]
  · intro hex hforce
    unfold restore
    rw [if_pos ⟨hex, hforce⟩]
  · intro hdir hforce
    unfold restore
    rw [if_neg (by simp [hforce]), hblob]
    simp only [hdir, if_false, reduceIte]
    exact ⟨_, rfl, by simp⟩

theorem C8_restore_policy_witness :
    ((fun h => if h = "H" then some "data" else none) : String → Option String) "H"
        = some "data" ∧
    ((resolveTarget (fun _ => none) ("/h".data) ⟨"/w/a", "H"⟩ none = "/w/a") ∧
      (resolveTarget (fun _ => none) ("/h".data) ⟨"/w/a", "H"⟩ (some "") = "/w/a") ∧
      (∀ t : String, t ≠ "" →
        (fun _ => none : Fs) (String.mk (make_path_absolute ("/h".data) t.data))
            = some FsEntry.dir →
        resolveTarget (fun _ => none) ("/h".data) ⟨"/w/a", "H"⟩ (some t)
          = String.mk (pjoin (make_path_absolute ("/h".data) t.data)
              (basename "/w/a").data)) ∧
      (∀ t : String, t ≠ "" →
        (fun _ => none : Fs) (String.mk (make_path_absolute ("/h".data) t.data))
            ≠ some FsEntry.dir →
        resolveTarget (fun _ => none) ("/h".data) ⟨"/w/a", "H"⟩ (some t)
          = String.mk (make_path_absolute ("/h".data) t.data)) ∧
      (((fun _ => none : Fs)
            (resolveTarget (fun _ => none) ("/h".data) ⟨"/w/a", "H"⟩ none)).isSome →
        false = false →
        restore (fun h => if h = "H" then some "data" else none) (fun _ => none)
            ("/h".data) ⟨"/w/a", "H"⟩ none false
          = Except.error (RestoreError.fileExists
              (resolveTarget (fun _ => none) ("/h".data) ⟨"/w/a", "H"⟩ none))) ∧
      ((fun _ => none : Fs)
            (resolveTarget (fun _ => none) ("/h".data) ⟨"/w/a", "H"⟩ none)
          ≠ some FsEntry.dir → false = true →
        ∃ fs', restore (fun h => if h = "H" then some "data" else none)
            (fun _ => none) ("/h".data) ⟨"/w/a", "H"⟩ none false
          = Except.ok (resolveTarget (fun _ => none) ("/h".data) ⟨"/w/a", "H"⟩ none,
              fs') ∧
          fs' (resolveTarget (fun _ => none) ("/h".data) ⟨"/w/a", "H"⟩ none)
            = some (FsEntry.file "data"))) :=
  ⟨rfl, C8_restore_policy _ _ ("/h".data) ⟨"/w/a", "H"⟩ none false "data" rfl⟩

/-! ## Ignore filter and event handler (`coba/config.py`, `coba/__init__.py`) -/

/-- The configuration `Config.is_file_ignored` consults: the maximum file
size in bytes and the compiled `pathspec` matcher (an external library,
abstracted as a predicate on the path string). -/
structure ConfigM where
  max_file_size : Nat
  patternMatches : String → Bool

/-- `path.stat().st_size`, with the `FileNotFoundError` fallback to size 0. -/
def statSize (fs : Fs) (p : String) : Nat :=
  match fs p with
  | some (FsEntry.file content) => content.length
  | _ => 0

/-- `Config.is_file_ignored`: true when the pattern spec matches, otherwise
when the file's byte size strictly exceeds `max_file_size`. -/
def is_file_ignored (c : ConfigM) (fs : Fs) (p : String) : Bool :=
  if c.patternMatches p then true
  else statSize fs p > c.max_file_size

/-- The kind of a raw watchdog event. -/
inductive EventKind
  | created
  | modified
  | moved
  | deleted
deriving DecidableEq

/-- A raw watchdog filesystem event. -/
structure Event where
  kind : EventKind
  is_directory : Bool
  src_path : String
  dest_path : String

/-- `EventHandler.dispatch`: directory events are dropped; otherwise the base
dispatch routes to `on_created`/`on_modified` (register the source path),
`on_moved` (register the destination path) or `on_deleted` (the inherited
no-op).  The handler holds only the queue; no ignore filter is consulted. -/
def eventHandlerDispatch (q : List QEntry) (now : Nat) (e : Event) :
    List QEntry :=
  if e.is_directory then q
  else
    match e.kind with
    | EventKind.created => dictQueueSet q e.src_path now
    | EventKind.modified => dictQueueSet q e.src_path now
    | EventKind.moved => dictQueueSet q e.dest_path now
    | EventKind.deleted => q

/-- C7 (counterexample): with no ignore patterns and maximum size 10 bytes,
the 11-byte file `/w/big` is ignored according to `Config.is_file_ignored`,
yet dispatching its modification event registers it in the queue — the
claimed "a path that is ignored ... is never registered" fails because the
watch pipeline never consults the filter. -/
theorem C7_ignored_path_is_registered :
    is_file_ignored ⟨10, fun _ => false⟩
        (fun q => if q = "/w/big" then some (FsEntry.file "aaaaaaaaaaa") else none)
        "/w/big" = true ∧
    eventHandlerDispatch [] 0 ⟨EventKind.modified, false, "/w/big", ""⟩
      = [("/w/big", 0)] :=
  ⟨rfl, rfl⟩

/-- C7 (amended): the event handler registers every non-directory
created/modified path (and the destination of every non-directory move)
unconditionally — registration is independent of any configuration, since the
handler never invokes `Config.is_file_ignored` — while `is_file_ignored`
itself decides pattern-or-size ignoring (a missing file counts as size 0). -/
theorem C7_no_filter_before_register (q : List QEntry) (now : Nat) (e : Event)
    (c : ConfigM) (fs : Fs) (hnd : e.is_directory = false) :
    (e.kind = EventKind.created ∨ e.kind = EventKind.modified →
      eventHandlerDispatch q now e = dictQueueSet q e.src_path now) ∧
    (e.kind = EventKind.moved →
      eventHandlerDispatch q now e = dictQueueSet q e.dest_path now) ∧
    (∀ p, is_file_ignored c fs p = true ↔
      c.patternMatches p = true ∨ statSize fs p > c.max_file_size) := by
  refine ⟨?_, ?_, ?_⟩
  · intro hk
    unfold eventHandlerDispatch
    rw [if_neg (by simp [hnd])]
    rcases hk with hk | hk <;> rw [hk]
  · intro hk
    unfold eventHandlerDispatch
    rw [if_neg (by simp [hnd]), hk]
  · intro p
    unfold is_file_ignored
    by_cases hp : c.patternMatches p
    · simp [hp]
    · simp [hp]

theorem C7_no_filter_before_register_witness :
    (⟨EventKind.modified, false, "/w/big", ""⟩ : Event).is_directory = false ∧
    (((⟨EventKind.modified, false, "/w/big", ""⟩ : Event).kind = EventKind.created ∨
        (⟨EventKind.modified, false, "/w/big", ""⟩ : Event).kind = EventKind.modified →
      eventHandlerDispatch [] 0 ⟨EventKind.modified, false, "/w/big", ""⟩
        = dictQueueSet [] (⟨EventKind.modified, false, "/w/big", ""⟩ : Event).src_path 0) ∧
    ((⟨EventKind.modified, false, "/w/big", ""⟩ : Event).kind = EventKind.moved →
      eventHandlerDispatch [] 0 ⟨EventKind.modified, false, "/w/big", ""⟩
        = dictQueueSet [] (⟨EventKind.modified, false, "/w/big", ""⟩ : Event).dest_path 0) ∧
    (∀ p, is_file_ignored ⟨10, fun _ => false⟩
          (fun q => if q = "/w/big" then some (FsEntry.file "aaaaaaaaaaa") else none)
          p = true ↔
        (⟨10, fun _ => false⟩ : ConfigM).patternMatches p = true ∨
          statSize
              (fun q => if q = "/w/big" then some (FsEntry.file "aaaaaaaaaaa") else none)
              p
            > (⟨10, fun _ => false⟩ : ConfigM).max_file_size)) :=
  ⟨rfl, C7_no_filter_before_register [] 0 _ _ _ rfl⟩

/-! ## Timestamp parsing (`coba/utils.py`, `parse_datetime`)

`datetime.strptime` compiles each format into one regex (`%Y` ↦ `\d\d\d\d`,
`%m` ↦ `1[0-2]|0[1-9]|[1-9]`, `%d` ↦ `3[01]|[12]\d|0[1-9]|[1-9]`,
`%H` ↦ `2[0-3]|[0-1]\d|\d`, `%M` ↦ `[0-5]\d|\d`, `%S` ↦ `6[0-1]|[0-5]\d|\d`,
literals escaped) and requires the whole string to match.  In the five
formats used here every field is followed by a non-digit literal or the end
of the string, so the locally greedy, first-alternative-wins parsers below
are equivalent to the backtracking regex. -/

/-- A `datetime.datetime` value (the fields `parse_datetime` manipulates). -/
structure DateTime where
  year : Nat
  month : Nat
  day : Nat
  hour : Nat
  minute : Nat
  second : Nat
deriving DecidableEq

/-- The value of a decimal digit character (`\d`), `none` otherwise. -/
def digit? (c : Char) : Option Nat :=
  if '0' ≤ c ∧ c ≤ '9' then some (c.toNat - 48) else none

/-- Match one literal character of the format. -/
def lit (c : Char) : PyStr → Option PyStr
  | [] => none
  | x :: rest => if x = c then some rest else none

/-- `%Y`: exactly four digits. -/
def parseYear : PyStr → Option (Nat × PyStr)
  | c1 :: c2 :: c3 :: c4 :: rest =>
    match digit? c1, digit? c2, digit? c3, digit? c4 with
    | some a, some b, some c, some d =>
        some (a * 1000 + b * 100 + c * 10 + d, rest)
    | _, _, _, _ => none
  | _ => none

/-- `%m`: regex `1[0-2]|0[1-9]|[1-9]`. -/
def parseMonth : PyStr → Option (Nat × PyStr)
  | [] => none
  | c1 :: rest =>
    match digit? c1 with
    | none => none
    | some d1 =>
      match rest.head?.bind digit? with
      | some d2 =>
        if d1 = 1 ∧ d2 ≤ 2 then some (10 + d2, rest.tail)
        else if d1 = 0 ∧ 1 ≤ d2 then some (d2, rest.tail)
        else if 1 ≤ d1 then some (d1, rest)
        else none
      | none => if 1 ≤ d1 then some (d1, rest) else none

/-- `%d`: regex `3[01]|[12]\d|0[1-9]|[1-9]`. -/
def parseDay : PyStr → Option (Nat × PyStr)
  | [] => none
  | c1 :: rest =>
    match digit? c1 with
    | none => none
    | some d1 =>
      match rest.head?.bind digit? with
      | some d2 =>
        if d1 = 3 ∧ d2 ≤ 1 then some (30 + d2, rest.tail)
        else if d1 = 1 ∨ d1 = 2 then some (10 * d1 + d2, rest.tail)
        else if d1 = 0 ∧ 1 ≤ d2 then some (d2, rest.tail)
        else if 1 ≤ d1 then some (d1, rest)
        else none
      | none => if 1 ≤ d1 then some (d1, rest) else none

/-- `%H`: regex `2[0-3]|[0-1]\d|\d`. -/
def parseHour : PyStr → Option (Nat × PyStr)
  | [] => none
  | c1 :: rest =>
    match digit? c1 with
    | none => none
    | some d1 =>
      match rest.head?.bind digit? with
      | some d2 =>
        if d1 = 2 ∧ d2 ≤ 3 then some (20 + d2, rest.tail)
        else if d1 ≤ 1 then some (10 * d1 + d2, rest.tail)
        else some (d1, rest)
      | none => some (d1, rest)

/-- `%M`: regex `[0-5]\d|\d`. -/
def parseMinute : PyStr → Option (Nat × PyStr)
  | [] => none
  | c1 :: rest =>
    match digit? c1 with
    | none => none
    | some d1 =>
      match rest.head?.bind digit? with
      | some d2 =>
        if d1 ≤ 5 then some (10 * d1 + d2, rest.tail)
        else some (d1, rest)
      | none => some (d1, rest)

/-- `%S`: regex `6[0-1]|[0-5]\d|\d` (strptime admits leap seconds; the
`datetime` constructor rejects 60 and 61 afterwards). -/
def parseSecond : PyStr → Option (Nat × PyStr)
  | [] => none
  | c1 :: rest =>
    match digit? c1 with
    | none => none
    | some d1 =>
      match rest.head?.bind digit? with
      | some d2 =>
        if d1 = 6 ∧ d2 ≤ 1 then some (60 + d2, rest.tail)
        else if d1 ≤ 5 then some (10 * d1 + d2, rest.tail)
        else some (d1, rest)
      | none => some (d1, rest)

/-- Gregorian leap year, as `datetime` computes it. -/
def isLeap (y : Nat) : Bool := (y % 4 = 0 ∧ y % 100 ≠ 0) ∨ y % 400 = 0

/-- Days in a month (`datetime`'s `_days_in_month`). -/
def daysInMonth (y m : Nat) : Nat :=
  if m = 2 then (if isLeap y then 29 else 28)
  else if m = 4 ∨ m = 6 ∨ m = 9 ∨ m = 11 then 30 else 31

/-- The `datetime.datetime` constructor's validation (`MINYEAR = 1`,
`MAXYEAR = 9999`, day within the month, hour/minute/second in range —
rejecting in particular `%Y` matching `0000` and the regex's leap seconds).
A `ValueError` here is caught by `parse_datetime`'s loop like any other
failed format. -/
def datetimeNew (y mo d h mi s : Nat) : Option DateTime :=
  if 1 ≤ y ∧ y ≤ 9999 ∧ 1 ≤ mo ∧ mo ≤ 12 ∧ 1 ≤ d ∧ d ≤ daysInMonth y mo
      ∧ h ≤ 23 ∧ mi ≤ 59 ∧ s ≤ 59
  then some ⟨y, mo, d, h, mi, s⟩ else none

/-- `datetime.strptime(s, '%Y-%m-%d %H:%M:%S')`: the whole string must be
consumed ("unconverted data remains" otherwise). -/
def strptimeFull (s : PyStr) : Option DateTime := do
  let (y, s) ← parseYear s
  let s ← lit '-' s
  let (mo, s) ← parseMonth s
  let s ← lit '-' s
  let (d, s) ← parseDay s
  let s ← lit ' ' s
  let (h, s) ← parseHour s
  let s ← lit ':' s
  let (mi, s) ← parseMinute s
  let s ← lit ':' s
  let (sec, s) ← parseSecond s
  if s = [] then datetimeNew y mo d h mi sec else none

/-- `datetime.strptime(s, '%Y-%m-%d %H:%M')`: seconds default to 0. -/
def strptimeYmdHM (s : PyStr) : Option DateTime := do
  let (y, s) ← parseYear s
  let s ← lit '-' s
  let (mo, s) ← parseMonth s
  let s ← lit '-' s
  let (d, s) ← parseDay s
  let s ← lit ' ' s
  let (h, s) ← parseHour s
  let s ← lit ':' s
  let (mi, s) ← parseMinute s
  if s = [] then datetimeNew y mo d h mi 0 else none

/-- `datetime.strptime(s, '%Y-%m-%d')`: the time defaults to 00:00:00. -/
def strptimeYmd (s : PyStr) : Option DateTime := do
  let (y, s) ← parseYear s
  let s ← lit '-' s
  let (mo, s) ← parseMonth s
  let s ← lit '-' s
  let (d, s) ← parseDay s
  if s = [] then datetimeNew y mo d 0 0 0 else none

/-- `datetime.strptime(s, '%H:%M:%S')`: the date defaults to 1900-01-01. -/
def strptimeHMS (s : PyStr) : Option DateTime := do
  let (h, s) ← parseHour s
  let s ← lit ':' s
  let (mi, s) ← parseMinute s
  let s ← lit ':' s
  let (sec, s) ← parseSecond s
  if s = [] then datetimeNew 1900 1 1 h mi sec else none

/-- `datetime.strptime(s, '%H:%M')`. -/
def strptimeHM (s : PyStr) : Option DateTime := do
  let (h, s) ← parseHour s
  let s ← lit ':' s
  let (mi, s) ← parseMinute s
  if s = [] then datetimeNew 1900 1 1 h mi 0 else none

/-- Python `\s`, restricted to ASCII. -/
def isPySpace (c : Char) : Bool :=
  c = ' ' ∨ c = '\t' ∨ c = '\n' ∨ c = '\x0b' ∨ c = '\x0c' ∨ c = '\r'

/-- `str.strip()`. -/
def strip (s : PyStr) : PyStr :=
  ((s.dropWhile isPySpace).reverse.dropWhile isPySpace).reverse

/-- `re.sub(r'\s+', ' ', ·)`: collapse every whitespace run into one
space. -/
def collapseWs : PyStr → PyStr
  | [] => []
  | [c] => if isPySpace c then [' '] else [c]
  | a :: b :: rest =>
    if isPySpace a ∧ isPySpace b then collapseWs (b :: rest)
    else (if isPySpace a then ' ' else a) :: collapseWs (b :: rest)

/-- The whitespace normalization at the top of `parse_datetime`. -/
def preprocess (s : PyStr) : PyStr := collapseWs (strip s)

/-- `coba.utils.parse_datetime`: normalize whitespace, then try the five
formats in order.  A format without `%Y` has its date replaced by today's
(`now`); one without `%H` gets 23:59:59; one without `%S` gets seconds 59.
`none` models the final `ValueError("Unknown date/time format")`. -/
def parse_datetime (now : DateTime) (s : PyStr) : Option DateTime :=
  let s := preprocess s
  match strptimeFull s with
  | some dt => some dt
  | none =>
    match strptimeYmdHM s with
    | some dt => some { dt with second := 59 }
    | none =>
      match strptimeYmd s with
      | some dt => some { dt with hour := 23, minute := 59, second := 59 }
      | none =>
        match strptimeHMS s with
        | some dt =>
            some { dt with year := now.year, month := now.month, day := now.day }
        | none =>
          match strptimeHM s with
          | some dt =>
              some { dt with year := now.year, month := now.month,
                             day := now.day, second := 59 }
          | none => none

/-- Zero-padded two-digit decimal rendering. -/
def render2 (n : Nat) : PyStr := [Nat.digitChar (n / 10), Nat.digitChar (n % 10)]

/-- Zero-padded four-digit decimal rendering. -/
def render4 (n : Nat) : PyStr :=
  [Nat.digitChar (n / 1000), Nat.digitChar (n / 100 % 10),
   Nat.digitChar (n / 10 % 10), Nat.digitChar (n % 10)]

/-- `YYYY-MM-DD`. -/
def renderDate (y mo d : Nat) : PyStr :=
  render4 y ++ '-' :: render2 mo ++ '-' :: render2 d

/-- `HH:MM`. -/
def renderHM (h mi : Nat) : PyStr := render2 h ++ ':' :: render2 mi

/-- `HH:MM:SS`. -/
def renderHMS (h mi s : Nat) : PyStr := renderHM h mi ++ ':' :: render2 s

theorem digit?_digitChar {n : Nat} (h : n ≤ 9) :
    digit? (Nat.digitChar n) = some n := by
  interval_cases n <;> decide

theorem parseYear_cons {y : Nat} (h : y ≤ 9999) (rest : PyStr) :
    parseYear (Nat.digitChar (y / 1000) :: Nat.digitChar (y / 100 % 10)
      :: Nat.digitChar (y / 10 % 10) :: Nat.digitChar (y % 10) :: rest)
      = some (y, rest) := by
  unfold parseYear
  dsimp only
  rw [digit?_digitChar (by omega), digit?_digitChar (by omega),
    digit?_digitChar (by omega), digit?_digitChar (by omega)]
  show some (y / 1000 * 1000 + y / 100 % 10 * 100 + y / 10 % 10 * 10 + y % 10, rest)
      = some (y, rest)
  have : y / 1000 * 1000 + y / 100 % 10 * 100 + y / 10 % 10 * 10 + y % 10 = y := by
    omega
  rw [this]

theorem head_bind_digitChar {n : Nat} (h : n ≤ 9) (rest : PyStr) :
    (Nat.digitChar n :: rest).head?.bind digit? = some n := by
  show digit? (Nat.digitChar n) = some n
  exact digit?_digitChar h

theorem parseMonth_cons {n : Nat} (h1 : 1 ≤ n) (h2 : n ≤ 12) (rest : PyStr) :
    parseMonth (Nat.digitChar (n / 10) :: Nat.digitChar (n % 10) :: rest)
      = some (n, rest) := by
  unfold parseMonth
  dsimp only
  rw [digit?_digitChar (by omega), head_bind_digitChar (by omega)]
  dsimp only
  split_ifs with ha hb hc
  · have : 10 + n % 10 = n := by omega
    rw [this]
    rfl
  · have : n % 10 = n := by omega
    rw [this]
    rfl
  · exfalso; omega
  · exfalso; omega

theorem parseDay_cons {n : Nat} (h1 : 1 ≤ n) (h2 : n ≤ 31) (rest : PyStr) :
    parseDay (Nat.digitChar (n / 10) :: Nat.digitChar (n % 10) :: rest)
      = some (n, rest) := by
  unfold parseDay
  dsimp only
  rw [digit?_digitChar (by omega), head_bind_digitChar (by omega)]
  dsimp only
  split_ifs with ha hb hc hd
  · have : 30 + n % 10 = n := by omega
    rw [this]
    rfl
  · have : 10 * (n / 10) + n % 10 = n := by omega
    rw [this]
    rfl
  · have : n % 10 = n := by omega
    rw [this]
    rfl
  · exfalso; omega
  · exfalso; omega

theorem parseHour_cons {n : Nat} (h : n ≤ 23) (rest : PyStr) :
    parseHour (Nat.digitChar (n / 10) :: Nat.digitChar (n % 10) :: rest)
      = some (n, rest) := by
  unfold parseHour
  dsimp only
  rw [digit?_digitChar (by omega), head_bind_digitChar (by omega)]
  dsimp only
  split_ifs with ha hb
  · have : 20 + n % 10 = n := by omega
    rw [this]
    rfl
  · have : 10 * (n / 10) + n % 10 = n := by omega
    rw [this]
    rfl
  · exfalso; omega

theorem parseMinute_cons {n : Nat} (h : n ≤ 59) (rest : PyStr) :
    parseMinute (Nat.digitChar (n / 10) :: Nat.digitChar (n % 10) :: rest)
      = some (n, rest) := by
  unfold parseMinute
  dsimp only
  rw [digit?_digitChar (by omega), head_bind_digitChar (by omega)]
  dsimp only
  split_ifs with ha
  · have : 10 * (n / 10) + n % 10 = n := by omega
    rw [this]
    rfl
  · exfalso; omega

theorem parseSecond_cons {n : Nat} (h : n ≤ 59) (rest : PyStr) :
    parseSecond (Nat.digitChar (n / 10) :: Nat.digitChar (n % 10) :: rest)
      = some (n, rest) := by
  unfold parseSecond
  dsimp only
  rw [digit?_digitChar (by omega), head_bind_digitChar (by omega)]
  dsimp only
  split_ifs with ha hb
  · exfalso; omega
  · have : 10 * (n / 10) + n % 10 = n := by omega
    rw [this]
    rfl
  · exfalso; omega

theorem daysInMonth_le_31 (y m : Nat) : daysInMonth y m ≤ 31 := by
  unfold daysInMonth
  split_ifs <;> omega

theorem parseYear_colon {a b : Nat} (ha : a ≤ 9) (hb : b ≤ 9) (c4 : Char)
    (rest : PyStr) :
    parseYear (Nat.digitChar a :: Nat.digitChar b :: ':' :: c4 :: rest) = none := by
  unfold parseYear
  dsimp only
  rw [digit?_digitChar ha, digit?_digitChar hb]
  rfl

theorem strptimeFull_render {y mo d h mi s : Nat} (hy1 : 1 ≤ y) (hy2 : y ≤ 9999)
    (hmo1 : 1 ≤ mo) (hmo2 : mo ≤ 12) (hd1 : 1 ≤ d) (hd2 : d ≤ daysInMonth y mo)
    (hh : h ≤ 23) (hmi : mi ≤ 59) (hs : s ≤ 59) :
    strptimeFull (renderDate y mo d ++ ' ' :: renderHMS h mi s)
      = some ⟨y, mo, d, h, mi, s⟩ := by
  have hd31 : d ≤ 31 := le_trans hd2 (daysInMonth_le_31 y mo)
  simp only [strptimeFull, renderDate, renderHMS, renderHM, render4, render2,
    List.cons_append, List.nil_append, List.append_assoc]
  rw [parseYear_cons hy2]
  simp only [Option.bind_eq_bind, Option.some_bind, lit, reduceIte]
  rw [parseMonth_cons hmo1 hmo2]
  simp only [Option.some_bind, lit, reduceIte]
  rw [parseDay_cons hd1 hd31]
  simp only [Option.some_bind, lit, reduceIte]
  rw [parseHour_cons hh]
  simp only [Option.some_bind, lit, reduceIte]
  rw [parseMinute_cons hmi]
  simp only [Option.some_bind, lit, reduceIte]
  rw [parseSecond_cons hs]
  simp only [Option.some_bind, reduceIte, datetimeNew]
  rw [if_pos ⟨hy1, hy2, hmo1, hmo2, hd1, hd2, hh, hmi, hs⟩]

theorem strptimeYmdHM_render {y mo d h mi : Nat} (hy1 : 1 ≤ y) (hy2 : y ≤ 9999)
    (hmo1 : 1 ≤ mo) (hmo2 : mo ≤ 12) (hd1 : 1 ≤ d) (hd2 : d ≤ daysInMonth y mo)
    (hh : h ≤ 23) (hmi : mi ≤ 59) :
    strptimeYmdHM (renderDate y mo d ++ ' ' :: renderHM h mi)
      = some ⟨y, mo, d, h, mi, 0⟩ := by
  have hd31 : d ≤ 31 := le_trans hd2 (daysInMonth_le_31 y mo)
  simp only [strptimeYmdHM, renderDate, renderHM, render4, render2,
    List.cons_append, List.nil_append, List.append_assoc]
  rw [parseYear_cons hy2]
  simp only [Option.bind_eq_bind, Option.some_bind, lit, reduceIte]
  rw [parseMonth_cons hmo1 hmo2]
  simp only [Option.some_bind, lit, reduceIte]
  rw [parseDay_cons hd1 hd31]
  simp only [Option.some_bind, lit, reduceIte]
  rw [parseHour_cons hh]
  simp only [Option.some_bind, lit, reduceIte]
  rw [parseMinute_cons hmi]
  simp only [Option.some_bind, reduceIte, datetimeNew]
  rw [if_pos ⟨hy1, hy2, hmo1, hmo2, hd1, hd2, hh, hmi, by omega⟩]

theorem strptimeYmd_render {y mo d : Nat} (hy1 : 1 ≤ y) (hy2 : y ≤ 9999)
    (hmo1 : 1 ≤ mo) (hmo2 : mo ≤ 12) (hd1 : 1 ≤ d) (hd2 : d ≤ daysInMonth y mo) :
    strptimeYmd (renderDate y mo d) = some ⟨y, mo, d, 0, 0, 0⟩ := by
  have hd31 : d ≤ 31 := le_trans hd2 (daysInMonth_le_31 y mo)
  simp only [strptimeYmd, renderDate, render4, render2,
    List.cons_append, List.nil_append, List.append_assoc]
  rw [parseYear_cons hy2]
  simp only [Option.bind_eq_bind, Option.some_bind, lit, reduceIte]
  rw [parseMonth_cons hmo1 hmo2]
  simp only [Option.some_bind, lit, reduceIte]
  rw [parseDay_cons hd1 hd31]
  simp only [Option.some_bind, reduceIte, datetimeNew]
  rw [if_pos ⟨hy1, hy2, hmo1, hmo2, hd1, hd2, by omega, by omega, by omega⟩]

theorem strptimeHMS_render {h mi s : Nat} (hh : h ≤ 23) (hmi : mi ≤ 59)
    (hs : s ≤ 59) :
    strptimeHMS (renderHMS h mi s) = some ⟨1900, 1, 1, h, mi, s⟩ := by
  simp only [strptimeHMS, renderHMS, renderHM, render2,
    List.cons_append, List.nil_append, List.append_assoc]
  rw [parseHour_cons hh]
  simp only [Option.bind_eq_bind, Option.some_bind, lit, reduceIte]
  rw [parseMinute_cons hmi]
  simp only [Option.some_bind, lit, reduceIte]
  rw [parseSecond_cons hs]
  simp only [Option.some_bind, reduceIte, datetimeNew]
  rw [if_pos (by refine ⟨by omega, by omega, by omega, by omega, by omega, ?_,
    hh, hmi, hs⟩; decide)]

theorem strptimeHM_render {h mi : Nat} (hh : h ≤ 23) (hmi : mi ≤ 59) :
    strptimeHM (renderHM h mi) = some ⟨1900, 1, 1, h, mi, 0⟩ := by
  simp only [strptimeHM, renderHM, render2,
    List.cons_append, List.nil_append, List.append_assoc]
  rw [parseHour_cons hh]
  simp only [Option.bind_eq_bind, Option.some_bind, lit, reduceIte]
  rw [parseMinute_cons hmi]
  simp only [Option.some_bind, reduceIte, datetimeNew]
  rw [if_pos (by refine ⟨by omega, by omega, by omega, by omega, by omega, ?_,
    hh, hmi, by omega⟩; decide)]

theorem strptimeFull_dateHM_none {y mo d h mi : Nat} (hy2 : y ≤ 9999)
    (hmo1 : 1 ≤ mo) (hmo2 : mo ≤ 12) (hd1 : 1 ≤ d) (hd31 : d ≤ 31)
    (hh : h ≤ 23) (hmi : mi ≤ 59) :
    strptimeFull (renderDate y mo d ++ ' ' :: renderHM h mi) = none := by
  simp only [strptimeFull, renderDate, renderHM, render4, render2,
    List.cons_append, List.nil_append, List.append_assoc]
  rw [parseYear_cons hy2]
  simp only [Option.bind_eq_bind, Option.some_bind, lit, reduceIte]
  rw [parseMonth_cons hmo1 hmo2]
  simp only [Option.some_bind, lit, reduceIte]
  rw [parseDay_cons hd1 hd31]
  simp only [Option.some_bind, lit, reduceIte]
  rw [parseHour_cons hh]
  simp only [Option.some_bind, lit, reduceIte]
  rw [parseMinute_cons hmi]
  simp only [Option.some_bind]
  rfl

theorem strptimeFull_date_none {y mo d : Nat} (hy2 : y ≤ 9999)
    (hmo1 : 1 ≤ mo) (hmo2 : mo ≤ 12) (hd1 : 1 ≤ d) (hd31 : d ≤ 31) :
    strptimeFull (renderDate y mo d) = none := by
  simp only [strptimeFull, renderDate, render4, render2,
    List.cons_append, List.nil_append, List.append_assoc]
  rw [parseYear_cons hy2]
  simp only [Option.bind_eq_bind, Option.some_bind, lit, reduceIte]
  rw [parseMonth_cons hmo1 hmo2]
  simp only [Option.some_bind, lit, reduceIte]
  rw [parseDay_cons hd1 hd31]
  simp only [Option.some_bind]
  rfl

theorem strptimeYmdHM_date_none {y mo d : Nat} (hy2 : y ≤ 9999)
    (hmo1 : 1 ≤ mo) (hmo2 : mo ≤ 12) (hd1 : 1 ≤ d) (hd31 : d ≤ 31) :
    strptimeYmdHM (renderDate y mo d) = none := by
  simp only [strptimeYmdHM, renderDate, render4, render2,
    List.cons_append, List.nil_append, List.append_assoc]
  rw [parseYear_cons hy2]
  simp only [Option.bind_eq_bind, Option.some_bind, lit, reduceIte]
  rw [parseMonth_cons hmo1 hmo2]
  simp only [Option.some_bind, lit, reduceIte]
  rw [parseDay_cons hd1 hd31]
  simp only [Option.some_bind]
  rfl

theorem strptimeFull_hms_none {h mi s : Nat} (hh : h ≤ 23) (hmi : mi ≤ 59) :
    strptimeFull (renderHMS h mi s) = none := by
  simp only [strptimeFull, renderHMS, renderHM, render2,
    List.cons_append, List.nil_append, List.append_assoc]
  rw [parseYear_colon (by omega) (by omega)]
  simp only [Option.bind_eq_bind, Option.none_bind]

theorem strptimeYmdHM_hms_none {h mi s : Nat} (hh : h ≤ 23) (hmi : mi ≤ 59) :
    strptimeYmdHM (renderHMS h mi s) = none := by
  simp only [strptimeYmdHM, renderHMS, renderHM, render2,
    List.cons_append, List.nil_append, List.append_assoc]
  rw [parseYear_colon (by omega) (by omega)]
  simp only [Option.bind_eq_bind, Option.none_bind]

theorem strptimeYmd_hms_none {h mi s : Nat} (hh : h ≤ 23) (hmi : mi ≤ 59) :
    strptimeYmd (renderHMS h mi s) = none := by
  simp only [strptimeYmd, renderHMS, renderHM, render2,
    List.cons_append, List.nil_append, List.append_assoc]
  rw [parseYear_colon (by omega) (by omega)]
  simp only [Option.bind_eq_bind, Option.none_bind]

theorem strptimeFull_hm_none {h mi : Nat} (hh : h ≤ 23) (hmi : mi ≤ 59) :
    strptimeFull (renderHM h mi) = none := by
  simp only [strptimeFull, renderHM, render2,
    List.cons_append, List.nil_append, List.append_assoc]
  rw [parseYear_colon (by omega) (by omega)]
  simp only [Option.bind_eq_bind, Option.none_bind]

theorem strptimeYmdHM_hm_none {h mi : Nat} (hh : h ≤ 23) (hmi : mi ≤ 59) :
    strptimeYmdHM (renderHM h mi) = none := by
  simp only [strptimeYmdHM, renderHM, render2,
    List.cons_append, List.nil_append, List.append_assoc]
  rw [parseYear_colon (by omega) (by omega)]
  simp only [Option.bind_eq_bind, Option.none_bind]

theorem strptimeYmd_hm_none {h mi : Nat} (hh : h ≤ 23) (hmi : mi ≤ 59) :
    strptimeYmd (renderHM h mi) = none := by
  simp only [strptimeYmd, renderHM, render2,
    List.cons_append, List.nil_append, List.append_assoc]
  rw [parseYear_colon (by omega) (by omega)]
  simp only [Option.bind_eq_bind, Option.none_bind]

theorem strptimeHMS_hm_none {h mi : Nat} (hh : h ≤ 23) (hmi : mi ≤ 59) :
    strptimeHMS (renderHM h mi) = none := by
  simp only [strptimeHMS, renderHM, render2,
    List.cons_append, List.nil_append, List.append_assoc]
  rw [parseHour_cons hh]
  simp only [Option.bind_eq_bind, Option.some_bind, lit, reduceIte]
  rw [parseMinute_cons hmi]
  simp only [Option.some_bind]
  rfl

/-- No whitespace character occurs in the list. -/
def NoWs (l : PyStr) : Prop := ∀ c ∈ l, isPySpace c = false

theorem isPySpace_digitChar {n : Nat} (h : n ≤ 9) :
    isPySpace (Nat.digitChar n) = false := by
  interval_cases n <;> decide

theorem noWs_append {a b : PyStr} (ha : NoWs a) (hb : NoWs b) : NoWs (a ++ b) := by
  intro c hc
  rcases List.mem_append.mp hc with h | h
  · exact ha c h
  · exact hb c h

theorem noWs_cons {c : Char} {t : PyStr} (hc : isPySpace c = false) (ht : NoWs t) :
    NoWs (c :: t) := by
  intro x hx
  rcases List.mem_cons.mp hx with h | h
  · subst h; exact hc
  · exact ht x h

theorem noWs_render2 {n : Nat} (h : n ≤ 99) : NoWs (render2 n) :=
  noWs_cons (isPySpace_digitChar (by omega))
    (noWs_cons (isPySpace_digitChar (by omega)) (by intro c hc; simp at hc))

theorem noWs_render4 {n : Nat} (h : n ≤ 9999) : NoWs (render4 n) :=
  noWs_cons (isPySpace_digitChar (by omega))
    (noWs_cons (isPySpace_digitChar (by omega))
      (noWs_cons (isPySpace_digitChar (by omega))
        (noWs_cons (isPySpace_digitChar (by omega)) (by intro c hc; simp at hc))))

theorem noWs_renderDate {y mo d : Nat} (hy : y ≤ 9999) (hmo : mo ≤ 99)
    (hd : d ≤ 99) : NoWs (renderDate y mo d) :=
  noWs_append
    (noWs_append (noWs_render4 hy) (noWs_cons (by decide) (noWs_render2 hmo)))
    (noWs_cons (by decide) (noWs_render2 hd))

theorem noWs_renderHM {h mi : Nat} (hh : h ≤ 99) (hmi : mi ≤ 99) :
    NoWs (renderHM h mi) :=
  noWs_append (noWs_render2 hh) (noWs_cons (by decide) (noWs_render2 hmi))

theorem noWs_renderHMS {h mi s : Nat} (hh : h ≤ 99) (hmi : mi ≤ 99) (hs : s ≤ 99) :
    NoWs (renderHMS h mi s) :=
  noWs_append (noWs_renderHM hh hmi) (noWs_cons (by decide) (noWs_render2 hs))

theorem noWs_reverse {l : PyStr} (h : NoWs l) : NoWs l.reverse :=
  fun c hc => h c (List.mem_reverse.mp hc)

theorem dropWhile_noWs {l : PyStr} (h : NoWs l) : l.dropWhile isPySpace = l := by
  cases l with
  | nil => rfl
  | cons a t =>
    exact List.dropWhile_cons_of_neg (by simp [h a (List.mem_cons_self _ _)])

theorem strip_noWs {l : PyStr} (h : NoWs l) : strip l = l := by
  unfold strip
  rw [dropWhile_noWs h, dropWhile_noWs (noWs_reverse h), List.reverse_reverse]

theorem collapseWs_noWs {l : PyStr} (h : NoWs l) : collapseWs l = l := by
  induction l with
  | nil => rfl
  | cons a t ih =>
    have hae := h a (List.mem_cons_self _ _)
    have ht : NoWs t := fun c hc => h c (List.mem_cons_of_mem _ hc)
    cases t with
    | nil =>
      show collapseWs [a] = [a]
      unfold collapseWs
      rw [if_neg (by simp [hae])]
    | cons b t2 =>
      show collapseWs (a :: b :: t2) = a :: b :: t2
      unfold collapseWs
      rw [if_neg (by simp [hae]), if_neg (by simp [hae])]
      rw [ih ht]

theorem preprocess_noWs {l : PyStr} (h : NoWs l) : preprocess l = l := by
  unfold preprocess
  rw [strip_noWs h, collapseWs_noWs h]

theorem strip_mid {a b : PyStr} (ha : NoWs a) (hb : NoWs b) (hane : a ≠ [])
    (hbne : b ≠ []) : strip (a ++ ' ' :: b) = a ++ ' ' :: b := by
  unfold strip
  have h1 : (a ++ ' ' :: b).dropWhile isPySpace = a ++ ' ' :: b := by
    cases a with
    | nil => exact absurd rfl hane
    | cons x t =>
      rw [List.cons_append]
      exact List.dropWhile_cons_of_neg (by simp [ha x (List.mem_cons_self _ _)])
  rw [h1]
  have h2 : (a ++ ' ' :: b).reverse = b.reverse ++ ' ' :: a.reverse := by
    rw [List.reverse_append, List.reverse_cons]
    simp
  rw [h2]
  have h3 : (b.reverse ++ ' ' :: a.reverse).dropWhile isPySpace
      = b.reverse ++ ' ' :: a.reverse := by
    cases hbr : b.reverse with
    | nil =>
      exact absurd (by simpa using congrArg List.reverse hbr) hbne
    | cons x t =>
      rw [List.cons_append]
      refine List.dropWhile_cons_of_neg ?_
      have hx : x ∈ b.reverse := hbr ▸ List.mem_cons_self _ _
      simp [noWs_reverse hb x hx]
  rw [h3, ← h2, List.reverse_reverse]

theorem collapseWs_mid {a b : PyStr} (ha : NoWs a) (hb : NoWs b) (hbne : b ≠ []) :
    collapseWs (a ++ ' ' :: b) = a ++ ' ' :: b := by
  induction a with
  | nil =>
    simp only [List.nil_append]
    cases b with
    | nil => exact absurd rfl hbne
    | cons x t =>
      show collapseWs (' ' :: x :: t) = ' ' :: x :: t
      unfold collapseWs
      have hx : isPySpace x = false := hb x (List.mem_cons_self _ _)
      rw [if_neg (by simp [hx]), if_pos (by decide)]
      rw [collapseWs_noWs hb]
  | cons x t ih =>
    have hx := ha x (List.mem_cons_self _ _)
    have hat : NoWs t := fun c hc => ha c (List.mem_cons_of_mem _ hc)
    have hne2 : t ++ ' ' :: b ≠ [] := by simp
    rw [List.cons_append]
    cases ht : t ++ ' ' :: b with
    | nil => exact absurd ht hne2
    | cons y ys =>
      show collapseWs (x :: y :: ys) = x :: y :: ys
      unfold collapseWs
      rw [if_neg (by simp [hx]), if_neg (by simp [hx])]
      rw [← ht, ih hat]

theorem preprocess_mid {a b : PyStr} (ha : NoWs a) (hb : NoWs b) (hane : a ≠ [])
    (hbne : b ≠ []) : preprocess (a ++ ' ' :: b) = a ++ ' ' :: b := by
  unfold preprocess
  rw [strip_mid ha hb hane hbne, collapseWs_mid ha hb hbne]

theorem parseYear_head_nodigit {c : Char} (h : digit? c = none) :
    ∀ s : PyStr, parseYear (c :: s) = none
  | [] => rfl
  | [_] => rfl
  | [_, _] => rfl
  | _ :: _ :: _ :: _ => by
    unfold parseYear
    dsimp only
    rw [h]

theorem parseHour_head_nodigit {c : Char} (h : digit? c = none) (s : PyStr) :
    parseHour (c :: s) = none := by
  unfold parseHour
  dsimp only
  rw [h]

theorem strptimeFull_head_nodigit {c : Char} (h : digit? c = none) (s : PyStr) :
    strptimeFull (c :: s) = none := by
  unfold strptimeFull
  rw [parseYear_head_nodigit h]
  simp only [Option.bind_eq_bind, Option.none_bind]

theorem strptimeYmdHM_head_nodigit {c : Char} (h : digit? c = none) (s : PyStr) :
    strptimeYmdHM (c :: s) = none := by
  unfold strptimeYmdHM
  rw [parseYear_head_nodigit h]
  simp only [Option.bind_eq_bind, Option.none_bind]

theorem strptimeYmd_head_nodigit {c : Char} (h : digit? c = none) (s : PyStr) :
    strptimeYmd (c :: s) = none := by
  unfold strptimeYmd
  rw [parseYear_head_nodigit h]
  simp only [Option.bind_eq_bind, Option.none_bind]

theorem strptimeHMS_head_nodigit {c : Char} (h : digit? c = none) (s : PyStr) :
    strptimeHMS (c :: s) = none := by
  unfold strptimeHMS
  rw [parseHour_head_nodigit h]
  simp only [Option.bind_eq_bind, Option.none_bind]

theorem strptimeHM_head_nodigit {c : Char} (h : digit? c = none) (s : PyStr) :
    strptimeHM (c :: s) = none := by
  unfold strptimeHM
  rw [parseHour_head_nodigit h]
  simp only [Option.bind_eq_bind, Option.none_bind]

/-- Every one of the five formats starts with a digit field, so an input whose
first character is not a digit (or an empty input) fails them all. -/
theorem parse_datetime_head_fail (now : DateTime) (t : PyStr)
    (h : ((preprocess t).head?.bind digit?) = none) :
    parse_datetime now t = none := by
  unfold parse_datetime
  dsimp only
  cases hp : preprocess t with
  | nil => rfl
  | cons c s =>
    rw [hp] at h
    have hd : digit? c = none := by simpa using h
    rw [strptimeFull_head_nodigit hd, strptimeYmdHM_head_nodigit hd,
      strptimeYmd_head_nodigit hd, strptimeHMS_head_nodigit hd,
      strptimeHM_head_nodigit hd]

/-- C9: timestamp parsing accepts exactly the five forms
`YYYY-MM-DD HH:MM:SS`, `YYYY-MM-DD HH:MM`, `YYYY-MM-DD`, `HH:MM:SS`
and `HH:MM`, tried in that order; when the date is missing the current local
date (`now`) is used, when seconds are missing they are set to 59, when the
time is missing entirely it is set to 23:59:59, and an input matching none of
the forms (after whitespace normalization it is empty or does not even start
with a digit) yields the error. -/
theorem C9_parse_datetime (now : DateTime) (y mo d h mi s : Nat)
    (hy1 : 1 ≤ y) (hy2 : y ≤ 9999) (hmo1 : 1 ≤ mo) (hmo2 : mo ≤ 12)
    (hd1 : 1 ≤ d) (hd2 : d ≤ daysInMonth y mo) (hh : h ≤ 23) (hmi : mi ≤ 59)
    (hs : s ≤ 59) :
    parse_datetime now (renderDate y mo d ++ ' ' :: renderHMS h mi s)
        = some ⟨y, mo, d, h, mi, s⟩ ∧
    parse_datetime now (renderDate y mo d ++ ' ' :: renderHM h mi)
        = some ⟨y, mo, d, h, mi, 59⟩ ∧
    parse_datetime now (renderDate y mo d) = some ⟨y, mo, d, 23, 59, 59⟩ ∧
    parse_datetime now (renderHMS h mi s)
        = some ⟨now.year, now.month, now.day, h, mi, s⟩ ∧
    parse_datetime now (renderHM h mi)
        = some ⟨now.year, now.month, now.day, h, mi, 59⟩ ∧
    (∀ t : PyStr, ((preprocess t).head?.bind digit?) = none →
      parse_datetime now t = none) := by
  have hd31 : d ≤ 31 := le_trans hd2 (daysInMonth_le_31 y mo)
  have hna : NoWs (renderDate y mo d) := noWs_renderDate hy2 (by omega) (by omega)
  have hdne : renderDate y mo d ≠ [] := by simp [renderDate, render4]
  refine ⟨?_, ?_, ?_, ?_, ?_, ?_⟩
  · unfold parse_datetime
    dsimp only
    rw [preprocess_mid hna (noWs_renderHMS (by omega) (by omega) (by omega))
        hdne (by simp [renderHMS, renderHM, render2]),
      strptimeFull_render hy1 hy2 hmo1 hmo2 hd1 hd2 hh hmi hs]
  · unfold parse_datetime
    dsimp only
    rw [preprocess_mid hna (noWs_renderHM (by omega) (by omega)) hdne
        (by simp [renderHM, render2]),
      strptimeFull_dateHM_none hy2 hmo1 hmo2 hd1 hd31 hh hmi,
      strptimeYmdHM_render hy1 hy2 hmo1 hmo2 hd1 hd2 hh hmi]
  · unfold parse_datetime
    dsimp only
    rw [preprocess_noWs hna,
      strptimeFull_date_none hy2 hmo1 hmo2 hd1 hd31,
      strptimeYmdHM_date_none hy2 hmo1 hmo2 hd1 hd31,
      strptimeYmd_render hy1 hy2 hmo1 hmo2 hd1 hd2]
  · unfold parse_datetime
    dsimp only
    rw [preprocess_noWs (noWs_renderHMS (by omega) (by omega) (by omega)),
      strptimeFull_hms_none hh hmi, strptimeYmdHM_hms_none hh hmi,
      strptimeYmd_hms_none hh hmi, strptimeHMS_render hh hmi hs]
  · unfold parse_datetime
    dsimp only
    rw [preprocess_noWs (noWs_renderHM (by omega) (by omega)),
      strptimeFull_hm_none hh hmi, strptimeYmdHM_hm_none hh hmi,
      strptimeYmd_hm_none hh hmi, strptimeHMS_hm_none hh hmi,
      strptimeHM_render hh hmi]
  · exact fun t ht => parse_datetime_head_fail now t ht

theorem C9_parse_datetime_witness :
    (1 ≤ 2018 ∧ 2018 ≤ 9999 ∧ 1 ≤ 1 ∧ 1 ≤ 12 ∧ 1 ≤ 3 ∧
      3 ≤ daysInMonth 2018 1 ∧ 12 ≤ 23 ∧ 54 ≤ 59 ∧ 3 ≤ 59) ∧
    (parse_datetime ⟨2026, 10, 12, 7, 8, 9⟩
          (renderDate 2018 1 3 ++ ' ' :: renderHMS 12 54 3)
        = some ⟨2018, 1, 3, 12, 54, 3⟩ ∧
      parse_datetime ⟨2026, 10, 12, 7, 8, 9⟩
          (renderDate 2018 1 3 ++ ' ' :: renderHM 12 54)
        = some ⟨2018, 1, 3, 12, 54, 59⟩ ∧
      parse_datetime ⟨2026, 10, 12, 7, 8, 9⟩ (renderDate 2018 1 3)
        = some ⟨2018, 1, 3, 23, 59, 59⟩ ∧
      parse_datetime ⟨2026, 10, 12, 7, 8, 9⟩ (renderHMS 12 54 3)
        = some ⟨2026, 10, 12, 12, 54, 3⟩ ∧
      parse_datetime ⟨2026, 10, 12, 7, 8, 9⟩ (renderHM 12 54)
        = some ⟨2026, 10, 12, 12, 54, 59⟩ ∧
      (∀ t : PyStr, ((preprocess t).head?.bind digit?) = none →
        parse_datetime ⟨2026, 10, 12, 7, 8, 9⟩ t = none)) :=
  ⟨by decide,
    C9_parse_datetime ⟨2026, 10, 12, 7, 8, 9⟩ 2018 1 3 12 54 3
      (by decide) (by decide) (by decide) (by decide) (by decide) (by decide)
      (by decide) (by decide) (by decide)⟩

end Coba
